import Mathlib

/-!
# Verification of the passport-cas CAS authentication strategy

A shallow embedding of `lib/passport-cas.js` (the `CasStrategy` passport
strategy for CAS single sign-on).  JavaScript objects are modelled as
insertion-ordered association lists of `JsVal` values, the Node `url` /
`querystring` primitives used by the source are modelled as executable
functions on character lists, and the request handlers
(`CasStrategy.prototype.authenticate`, the validation callback, and
`CasStrategy.prototype.getProxyTicket`) become pure functions that return
the single framework action (redirect / fail / error / external call) the
source performs on each path.
-/

set_option autoImplicit false

namespace PassportCas

/-- A JavaScript value, restricted to the shapes that flow through the
strategy: `undefined`, `null`, strings, arrays and plain objects. -/
inductive JsVal where
  | undefined
  | null
  | str (s : String)
  | arr (xs : List JsVal)
  | obj (fields : List (String × JsVal))

/-- A JavaScript object: insertion-ordered key/value pairs (keys unique in
objects produced by the runtime). -/
abbrev JsObj := List (String × JsVal)

/-- JavaScript truthiness for the values in our model: `undefined`, `null`
and the empty string are falsy; arrays and objects are always truthy. -/
def jsTruthy : JsVal → Bool
  | .undefined => false
  | .null => false
  | .str s => !s.isEmpty
  | .arr _ => true
  | .obj _ => true

/-- Property read `o[k]`: the first binding of `k`, or `undefined`. -/
def jsGet : JsObj → String → JsVal
  | [], _ => .undefined
  | (k', v') :: t, k => if k' = k then v' else jsGet t k

/-- Property write `o[k] = v`: replace the binding in place if the key
exists (JS objects keep insertion order on assignment), else append. -/
def jsSet : JsObj → String → JsVal → JsObj
  | [], k, v => [(k, v)]
  | (k', v') :: t, k, v => if k' = k then (k, v) :: t else (k', v') :: jsSet t k v

/-- Property deletion `delete o[k]`. -/
def jsDelete : JsObj → String → JsObj
  | [], _ => []
  | (k', v') :: t, k => if k' = k then jsDelete t k else (k', v') :: jsDelete t k

/-- Property read on an arbitrary value (`v.PGTIOU` etc.): only objects
have own properties in our model, anything else yields `undefined`. -/
def jsGetProp (v : JsVal) (k : String) : JsVal :=
  match v with
  | .obj o => jsGet o k
  | _ => .undefined

/-- The keys of an object, in insertion order. -/
def keysOf (o : JsObj) : List String := o.map Prod.fst

/-- `value[0]` on a JS array (undefined when empty). -/
def firstOrUndefined : List JsVal → JsVal
  | [] => .undefined
  | x :: _ => x

/-- `typeof v == 'object'`: true for objects, arrays and `null`. -/
def typeofObject : JsVal → Bool
  | .obj _ => true
  | .arr _ => true
  | .null => true
  | _ => false

/-- Whether a value prints as an object shape (used to refute claims about
the profile `name` record). -/
def jsIsObj : JsVal → Bool
  | .obj _ => true
  | _ => false

/-! ## The profile mapper (source lines 179-242)

`authenticate`'s success path builds a fixed profile object and then maps
CAS extended attributes into it, driven by `casPropertyMap`.  The `for
(var key in profile)` loop runs over the five literal keys `provider`,
`id`, `displayName`, `name`, `emails` in insertion order; we unroll it. -/

/-- `self.casPropertyMap[key] || key` — resolve a profile field to a CAS
attribute name (falsy mapped values fall back to the field name). -/
def resolve (pm : List (String × String)) (field : String) : String :=
  match List.lookup field pm with
  | some m => if m = "" then field else m
  | none => field

/-- The assignment rule used for `name` sub-fields (lines 198-202):
first element for arrays, the raw value (possibly `undefined`) otherwise. -/
def selectVal : JsVal → JsVal
  | .arr xs => firstOrUndefined xs
  | v => v

/-- One iteration of the mapping loop for a key that is neither `name` nor
`emails` (lines 227-237): arrays assign their first element, other values
assign only when truthy; the consumed attribute is deleted either way. -/
def otherStep (pm : List (String × String)) (key : String) :
    JsObj × JsObj → JsObj × JsObj :=
  fun st =>
    let mk := resolve pm key
    let value := jsGet st.2 mk
    let profile :=
      match value with
      | .arr xs => jsSet st.1 key (firstOrUndefined xs)
      | v => if jsTruthy v then jsSet st.1 key v else st.1
    (profile, jsDelete st.2 mk)

/-- The `name` branch of the loop (lines 194-204): sub-keys iterate in the
literal's insertion order `familyName`, `givenName`, `middleName`, each
assigning unconditionally and deleting its consumed attribute. -/
def nameStep (pm : List (String × String)) : JsObj × JsObj → JsObj × JsObj :=
  fun st =>
    let n0 : JsObj :=
      match jsGet st.1 "name" with
      | .obj o => o
      | _ => []
    let m1 := resolve pm "familyName"
    let n1 := jsSet n0 "familyName" (selectVal (jsGet st.2 m1))
    let a1 := jsDelete st.2 m1
    let m2 := resolve pm "givenName"
    let n2 := jsSet n1 "givenName" (selectVal (jsGet a1 m2))
    let a2 := jsDelete a1 m2
    let m3 := resolve pm "middleName"
    let n3 := jsSet n2 "middleName" (selectVal (jsGet a2 m3))
    let a3 := jsDelete a2 m3
    (jsSet st.1 "name" (.obj n3), a3)

/-- `{value: v, type: 'default'}` (lines 215-218). -/
def wrapEmail (e : JsVal) : JsVal :=
  .obj [("value", e), ("type", .str "default")]

/-- The value assigned to `profile.emails` (lines 209-224): an array whose
first element has `typeof == 'object'` is kept as-is, any other array is
wrapped element-wise, a non-array becomes a one-element array. -/
def emailsValue : JsVal → JsVal
  | .arr xs =>
    match xs with
    | x :: _ => if typeofObject x then .arr xs else .arr (xs.map wrapEmail)
    | [] => .arr ([] : List JsVal)
  | v => .arr [v]

/-- The `emails` branch of the loop (lines 206-226). -/
def emailsStep (pm : List (String × String)) : JsObj × JsObj → JsObj × JsObj :=
  fun st =>
    let mk := resolve pm "emails"
    (jsSet st.1 "emails" (emailsValue (jsGet st.2 mk)), jsDelete st.2 mk)

/-- The initial profile literal (lines 180-190). `displayName` reads the
`displayName` attribute literally at construction; `id` prefers
`extended.id`. -/
def initProfile (username : String) (extendedId : JsVal) (attrs : JsObj) : JsObj :=
  [("provider", .str "CAS"),
   ("id", if jsTruthy extendedId then extendedId else .str username),
   ("displayName",
     if jsTruthy (jsGet attrs "displayName") then jsGet attrs "displayName"
     else .str username),
   ("name", .obj [("familyName", .null), ("givenName", .null), ("middleName", .null)]),
   ("emails", .arr [])]

/-- The unrolled mapping loop: keys iterate in the literal's insertion
order `provider`, `id`, `displayName`, `name`, `emails`. -/
def mapSteps (pm : List (String × String)) (st : JsObj × JsObj) : JsObj × JsObj :=
  emailsStep pm (nameStep pm
    (otherStep pm "displayName" (otherStep pm "id" (otherStep pm "provider" st))))

/-- The attribute names consumed (deleted) by the mapping loop, in the
order they are deleted. -/
def consumedKeys (pm : List (String × String)) : List String :=
  [resolve pm "provider", resolve pm "id", resolve pm "displayName",
   resolve pm "familyName", resolve pm "givenName", resolve pm "middleName",
   resolve pm "emails"]

/-- `ks.foldl jsDelete o`: delete a list of keys in order. -/
def deleteAll (o : JsObj) (ks : List String) : JsObj :=
  ks.foldl jsDelete o

/-- The pass-through loop (lines 240-242): copy every remaining attribute
onto the profile under its own name. -/
def passThrough (attrs : JsObj) (profile : JsObj) : JsObj :=
  attrs.foldl (fun p kv => jsSet p kv.1 kv.2) profile

/-- The whole profile construction of the success path (lines 179-242):
build the literal profile, run the mapping loop, then copy every
remaining attribute through (lines 240-242). -/
def mapProfile (pm : List (String × String)) (username : String)
    (extendedId : JsVal) (attrs0 : JsObj) : JsObj :=
  let st := mapSteps pm (initProfile username extendedId attrs0, attrs0)
  passThrough st.2 st.1

/-! ## Percent-encoding (`encodeURIComponent` / component decoding)

The strategy encodes the service URL with `encodeURIComponent` and the
query strings flowing through `url.parse(.., true)` / `url.format` are
decoded and re-encoded with the same escaping.  We model the byte-oriented
fragment (code points below 256; request lines are ASCII). -/

/-- The hex digit characters used by percent-encoding (upper case). -/
def hexDigitChar (n : Nat) : Char :=
  if n < 10 then Char.ofNat (48 + n) else Char.ofNat (55 + n)

/-- Numeric value of a hex digit character. -/
def hexVal (c : Char) : Nat :=
  if c.isDigit then c.toNat - 48
  else if 'A' ≤ c ∧ c ≤ 'F' then c.toNat - 55
  else if 'a' ≤ c ∧ c ≤ 'f' then c.toNat - 87
  else 0

/-- Whether a character is a hex digit. -/
def isHexDigit (c : Char) : Bool :=
  c.isDigit || ('A' ≤ c && c ≤ 'F') || ('a' ≤ c && c ≤ 'f')

/-- The characters `encodeURIComponent` leaves unescaped:
letters, digits and `- _ . ! ~ * ' ( )`. -/
def uriUnreserved (c : Char) : Bool :=
  c.isAlphanum || c = '-' || c = '_' || c = '.' || c = '!' || c = '~' ||
    c = '*' || c = Char.ofNat 39 || c = '(' || c = ')'

/-- Percent-encode a single character (single-byte code points). -/
def encodeChar (c : Char) : List Char :=
  if uriUnreserved c then [c]
  else if c.toNat < 256 then
    ['%', hexDigitChar (c.toNat / 16), hexDigitChar (c.toNat % 16)]
  else [c]

/-- Percent-encode a character list. -/
def percentEncode (l : List Char) : List Char :=
  (l.map encodeChar).flatten

/-- Percent-decode a character list (`%HH` triples become the byte). -/
def percentDecode : List Char → List Char
  | [] => []
  | c :: rest =>
    if c = '%' then
      match rest with
      | h1 :: h2 :: rest2 =>
        if isHexDigit h1 && isHexDigit h2 then
          Char.ofNat (hexVal h1 * 16 + hexVal h2) :: percentDecode rest2
        else c :: percentDecode (h1 :: h2 :: rest2)
      | r => c :: percentDecode r
    else c :: percentDecode rest

/-- `encodeURIComponent`. -/
def encodeURIComponent (s : String) : String :=
  ⟨percentEncode s.data⟩

/-- `decodeURIComponent` (on well-formed input). -/
def decodeURIComponent (s : String) : String :=
  ⟨percentDecode s.data⟩

/-! ## Query-string parsing and formatting (`querystring` module) -/

/-- Split a character list on a separator (like `String.split`). -/
def splitOnChar (sep : Char) : List Char → List (List Char)
  | [] => [[]]
  | c :: t =>
    match splitOnChar sep t with
    | [] => [[c]]
    | h :: r => if c = sep then [] :: h :: r else (c :: h) :: r

/-- Decode one query component: `querystring.parse` maps `+` to a space
and percent-decodes. -/
def decodeComp (l : List Char) : List Char :=
  percentDecode (l.map (fun c => if c = '+' then ' ' else c))

/-- Parse one `name=value` fragment (no `=` means an empty value). -/
def parsePart (p : List Char) : String × String :=
  let kRaw := p.takeWhile (fun c => c ≠ '=')
  let rest := p.drop kRaw.length
  let vRaw := match rest with
    | '=' :: v => v
    | _ => []
  (⟨decodeComp kRaw⟩, ⟨decodeComp vRaw⟩)

/-- `querystring.parse`: split on `&`, then split each part at its first
`=`, decoding names and values. -/
def parseQuery (l : List Char) : List (String × String) :=
  match l with
  | [] => []
  | _ => (splitOnChar '&' l).map parsePart

/-- Encode one pair for `querystring.stringify`. -/
def encPair (p : String × String) : List Char :=
  percentEncode p.1.data ++ '=' :: percentEncode p.2.data

/-- `querystring.stringify`: `name=value` fragments joined with `&`. -/
def formatQuery : List (String × String) → List Char
  | [] => []
  | [p] => encPair p
  | p :: rest => encPair p ++ '&' :: formatQuery rest

/-! ## URL parsing and formatting (`url` module, the slice used here) -/

/-- The components of `url.parse(s, true)` that the strategy reads. -/
structure UrlParts where
  protocol : Option String
  host : Option String
  pathname : Option String
  query : List (String × String)

/-- Split a path-plus-search fragment into pathname and parsed query. -/
def pathQuery (l : List Char) : Option String × List (String × String) :=
  let p := l.takeWhile (fun c => c ≠ '?')
  let rest := l.drop p.length
  let q := match rest with
    | '?' :: qs => parseQuery qs
    | _ => []
  (if p.isEmpty then none else some ⟨p⟩, q)

/-- `url.parse(s, true)` restricted to the URLs the strategy sees:
either `scheme://host/path?query` or a relative `path?query`. -/
def parseUrl (s : String) : UrlParts :=
  let cs := s.data
  let scheme := cs.takeWhile Char.isAlpha
  match cs.drop scheme.length with
  | ':' :: '/' :: '/' :: rest =>
    if scheme.isEmpty then
      let pq := pathQuery cs
      ⟨none, none, pq.1, pq.2⟩
    else
      let host := rest.takeWhile (fun c => ¬(c = '/' ∨ c = '?' ∨ c = '#'))
      let pq := pathQuery (rest.drop host.length)
      ⟨some ⟨scheme⟩, if host.isEmpty then none else some ⟨host⟩, pq.1, pq.2⟩
  | _ =>
    let pq := pathQuery cs
    ⟨none, none, pq.1, pq.2⟩

/-- The protocols `url.format` renders with `//` (Node's slashed set). -/
def slashedProtocol (p : String) : Bool :=
  p = "http" || p = "https" || p = "ftp" || p = "gopher" || p = "file" ||
    p = "ws" || p = "wss"

/-- `url.format({protocol, host, pathname, query})` for the inputs the
strategy produces: protocol gains `:`, slashed protocols gain `//`, a
non-empty query gains `?` and is stringified. -/
def urlFormat (protocol host pathname : String) (query : List (String × String)) :
    String :=
  let proto := if protocol = "" then "" else protocol ++ ":"
  let hostPart := if slashedProtocol protocol then "//" ++ host else host
  let pathname' :=
    if slashedProtocol protocol ∧ host ≠ "" ∧ pathname ≠ "" ∧
        ¬(pathname.data.head? = some '/')
    then "/" ++ pathname else pathname
  let search := if query.isEmpty then "" else "?" ++ (⟨formatQuery query⟩ : String)
  proto ++ hostPart ++ pathname' ++ search

/-! ## The strategy and the request model -/

/-- The configuration of a `CasStrategy` instance after the constructor
(lines 74-103) normalised the options: `casPgtUrl` is `none` when
`options.pgtURL` was falsy. -/
structure Strategy where
  casBaseUrl : String
  casPgtUrl : Option String := none
  casPropertyMap : List (String × String) := []
  casSessionKey : String := "cas"

/-- The inbound request as `authenticate` reads it: `reqUrl` is
`req.originalUrl || req.url`, the header fields are the proxy headers, and
`protocol` is the framework's `req.protocol`. -/
structure Request where
  passportInitialized : Bool := true
  reqUrl : String
  xForwardedProto : Option String := none
  xProxiedProtocol : Option String := none
  protocol : Option String := none
  xForwardedHost : Option String := none
  host : Option String := none
  xProxiedRequestUri : Option String := none

/-- JavaScript `a || b` on possibly-absent strings (empty string is
falsy). -/
def jsOr (a b : Option String) : Option String :=
  match a with
  | some s => if s = "" then b else some s
  | none => b

/-- The `service` string (lines 129-135): the request URL re-assembled
with the `ticket` query parameter deleted, honouring the forwarding
headers for protocol, host and path. -/
def buildService (req : Request) : String :=
  let reqURL := parseUrl req.reqUrl
  let protocol := (jsOr req.xForwardedProto (jsOr req.xProxiedProtocol req.protocol)).getD "http"
  let host := (jsOr req.xForwardedHost (jsOr req.host reqURL.host)).getD ""
  let pathname := (jsOr req.xProxiedRequestUri reqURL.pathname).getD ""
  urlFormat protocol host pathname (reqURL.query.filter (fun kv => ¬(kv.1 = "ticket")))

/-- The single action `authenticate` performs before any asynchronous
validation result arrives: an error (passport not initialised), the
login redirect, or the call into the CAS validation client. -/
inductive AuthStep where
  | error (msg : String)
  | redirect (url : String) (status : Nat)
  | validate (ticket : String) (service : String)

/-- `CasStrategy.prototype.authenticate` up to the `cas.validate` call
(lines 117-143): with no (or falsy) ticket it issues the 307 login
redirect; otherwise it hands the ticket and service to the validation
client.  The verify callback only ever runs inside the validation
continuation, so a `redirect` result means neither happens. -/
def authenticate (strat : Strategy) (req : Request) : AuthStep :=
  if req.passportInitialized = false then
    .error "passport.initialize() middleware not in use"
  else
    let service := buildService req
    match List.lookup "ticket" (parseUrl req.reqUrl).query with
    | none =>
      .redirect (strat.casBaseUrl ++ "/login?service=" ++ encodeURIComponent service) 307
    | some t =>
      if t = "" then
        .redirect (strat.casBaseUrl ++ "/login?service=" ++ encodeURIComponent service) 307
      else
        .validate t service

/-! ## The validation-failure path (lines 146-161) -/

/-- `Math.round(date.getTime() / 60000)`: the minute-window token, with
`now` in milliseconds. -/
def casRetryToken (now : Nat) : Nat :=
  (now + 30000) / 60000

/-- `ToNumber` on the strings that can reach the `!=` comparison: digit
strings convert to their value, the empty string to 0, anything else is
`NaN` (`none`). -/
def jsToNumber? (s : String) : Option Nat :=
  if s.data.isEmpty then some 0
  else if s.data.all Char.isDigit then
    some (s.data.foldl (fun a c => a * 10 + (c.toNat - 48)) 0)
  else none

/-- The digit-string value used to compare `_cas_retry` tokens. -/
def digitsToNat (l : List Char) : Nat :=
  l.foldl (fun a c => a * 10 + (c.toNat - 48)) 0

/-- The loose comparison `req.query['_cas_retry'] != token`:
`undefined != number` is true; a string compares by numeric value. -/
def jsLooseNeNat (v : Option String) (n : Nat) : Bool :=
  match v with
  | none => true
  | some s =>
    match jsToNumber? s with
    | some m => decide (m ≠ n)
    | none => true

/-- The literal `_cas_retry=` prefix of the first rewrite regex. -/
def retryPat : List Char := "_cas_retry=".data

/-- One attempted match of `/_cas_retry=\d+&?/` at the head of `cs`:
on success, the remainder after the (greedy) match. -/
def matchRetryAt (cs : List Char) : Option (List Char) :=
  if retryPat.isPrefixOf cs then
    let rest := cs.drop retryPat.length
    let ds := rest.takeWhile Char.isDigit
    if ds.isEmpty then none
    else
      match rest.drop ds.length with
      | '&' :: t => some t
      | t => some t
  else none

/-- `.replace(/_cas_retry=\d+&?/, '')`: delete the first match. -/
def replaceRetry : List Char → List Char
  | [] => []
  | c :: t =>
    match matchRetryAt (c :: t) with
    | some rem => rem
    | none => c :: replaceRetry t

/-- The literal `ticket=` fragment of the second rewrite regex. -/
def ticketPat : List Char := "ticket=".data

/-- The `[\w.-]` character class. -/
def isWordDotDash (c : Char) : Bool :=
  c.isAlphanum || c = '_' || c = '.' || c = '-'

/-- One attempted match of `/([?&])ticket=[\w.-]+/` at the head of `cs`:
on success, the captured delimiter and the remainder after the match. -/
def matchTicketAt (cs : List Char) : Option (Char × List Char) :=
  match cs with
  | [] => none
  | c :: t =>
    if (c = '?' ∨ c = '&') ∧ ticketPat.isPrefixOf t then
      let rest := t.drop ticketPat.length
      let ws := rest.takeWhile isWordDotDash
      if ws.isEmpty then none else some (c, rest.drop ws.length)
    else none

/-- `.replace(/([?&])ticket=[\w.-]+/, '$1_cas_retry=' + token)`:
replace the first match, keeping the captured delimiter. -/
def replaceTicket (tok : List Char) : List Char → List Char
  | [] => []
  | c :: t =>
    match matchTicketAt (c :: t) with
    | some (d, rem) => d :: (retryPat ++ tok ++ rem)
    | none => c :: replaceTicket tok t

/-- The retry-redirect URL (lines 154-156): strip a previous `_cas_retry`
parameter, then turn the `ticket` parameter into `_cas_retry=<token>`. -/
def rewriteRetryUrl (u : String) (token : Nat) : String :=
  ⟨replaceTicket (toString token).data (replaceRetry u.data)⟩

/-- The action the validation-error branch performs. -/
inductive FailStep where
  | redirect (url : String) (status : Nat)
  | fail (err : String)

/-- The `if (err)` branch of the validation callback (lines 146-161):
redirect to the rewritten URL unless this minute window already retried,
in which case fail with the original error. -/
def onValidationError (req : Request) (now : Nat) (err : String) : FailStep :=
  let token := casRetryToken now
  if jsLooseNeNat (List.lookup "_cas_retry" (parseUrl req.reqUrl).query) token then
    .redirect (rewriteRetryUrl req.reqUrl token) 307
  else
    .fail err

/-! ## The validation-success path (lines 165-248) -/

/-- The `extended` argument of the validation callback. -/
structure Extended where
  id : JsVal := .undefined
  attributes : JsObj := []
  PGTIOU : JsVal := .undefined

/-- The session write of the success path (lines 173-177): the entry under
the session key is replaced by a fresh object, and the PGTIOU is stored
into it only when a PGT callback URL is configured. -/
def sessionAfterSuccess (pgtUrl : Option String) (sessionKey : String)
    (session : JsObj) (pgtiou : JsVal) : JsObj :=
  let s1 := jsSet session sessionKey (.obj [])
  if pgtUrl.isSome then jsSet s1 sessionKey (.obj [("PGTIOU", pgtiou)]) else s1

/-- What the success path hands to the application: the updated session
and the single verify-callback invocation `(username, profile)`. -/
structure SuccessOutcome where
  session : JsObj
  verifyUsername : String
  verifyProfile : JsObj

/-- The `else` branch of the validation callback (lines 165-248). -/
def onValidationSuccess (strat : Strategy) (session : JsObj) (username : String)
    (extended : Extended) : SuccessOutcome :=
  { session := sessionAfterSuccess strat.casPgtUrl strat.casSessionKey session extended.PGTIOU,
    verifyUsername := username,
    verifyProfile := mapProfile strat.casPropertyMap username extended.id extended.attributes }

/-! ## `getProxyTicket` (lines 296-319) -/

/-- The action `getProxyTicket` performs: either the completion callback
receives only an error, or the CAS client's proxy-ticket exchange is
invoked with the stored PGTIOU and the target service. -/
inductive ProxyStep where
  | failure (msg : String)
  | exchange (pgtiou : JsVal) (target : String)

/-- `CasStrategy.prototype.getProxyTicket`: `session?` is `req.session`
(`none` when the host provides no session storage). -/
def getProxyTicket (strat : Strategy) (session? : Option JsObj) (target : String) :
    ProxyStep :=
  match session? with
  | none => .failure "Session is not found"
  | some sess =>
    let record := jsGet sess strat.casSessionKey
    if jsTruthy record = false then
      .failure "User is not authenticated with CAS"
    else
      let pgtiou := jsGetProp record "PGTIOU"
      if jsTruthy pgtiou = false then
        .failure "PGTIOU token not found. Make sure pgtURL option is correct, and the CAS server allows proxies."
      else
        .exchange pgtiou target

/-! ## Helpers for stating URL shapes

These build the raw request URLs the theorems quantify over: a path, a
`?`, and `name=value` parameters joined with `&`, exactly as a browser
sends them. -/

/-- One raw `name=value` query fragment. -/
def rawPair (p : String × String) : List Char :=
  p.1.data ++ '=' :: p.2.data

/-- Raw query fragments joined with `&`. -/
def fmtRaw : List (String × String) → List Char
  | [] => []
  | [p] => rawPair p
  | p :: rest => rawPair p ++ '&' :: fmtRaw rest

/-- `path?name=value&...`: the raw request URL for a path and query
parameters. -/
def mkUrl (path : String) (parts : List (String × String)) : String :=
  ⟨path.data ++ '?' :: fmtRaw parts⟩

/-- A character that survives query parsing untouched: not a separator,
not an escape, not a plus. -/
def queryChar (c : Char) : Bool :=
  !(c = '&' || c = '=' || c = '%' || c = '+')

/-- A query pair whose raw text round-trips through `querystring`
parsing. -/
def rawOk (p : String × String) : Bool :=
  p.1.data.all queryChar && p.2.data.all queryChar

/-- A query pair that `querystring.stringify` re-emits verbatim. -/
def uriOk (p : String × String) : Bool :=
  p.1.data.all uriUnreserved && p.2.data.all uriUnreserved

/-- A query pair whose name and value are plain alphanumerics. -/
def alnumOk (p : String × String) : Bool :=
  p.1.data.all Char.isAlphanum && p.2.data.all Char.isAlphanum

/-- A benign query-parameter name: non-empty, alphanumeric, and not
starting with `t` (so it cannot begin a `ticket=` match). -/
def safeName (s : String) : Bool :=
  !s.data.isEmpty && !(s.data.head? = some 't') && s.data.all Char.isAlphanum

/-- A benign query-parameter value: alphanumeric. -/
def safeVal (s : String) : Bool :=
  s.data.all Char.isAlphanum

/-- A CAS ticket value: non-empty over the `[\w.-]` subset without
underscores. -/
def ticketOk (s : String) : Bool :=
  !s.data.isEmpty && s.data.all (fun c => c.isAlphanum || c = '.' || c = '-')

/-- A non-empty digit string (the shape of `_cas_retry` values the code
itself produces). -/
def digitsOk (s : String) : Bool :=
  !s.data.isEmpty && s.data.all Char.isDigit

/-- A path made of `/` and alphanumerics, starting with `/`. -/
def pathOk (s : String) : Bool :=
  s.data.head? = some '/' && s.data.all (fun c => c = '/' || c.isAlphanum)

/-- A host made of alphanumerics, dots, dashes and a port colon. -/
def hostOk (s : String) : Bool :=
  !s.isEmpty && s.data.all (fun c => c.isAlphanum || c = '.' || c = ':' || c = '-')

/-! ## Object-operation lemmas -/

theorem jsGet_set_self (o : JsObj) (k : String) (v : JsVal) :
    jsGet (jsSet o k v) k = v := by
  induction o with
  | nil => simp [jsSet, jsGet]
  | cons p t ih =>
    by_cases h : p.1 = k
    · simp [jsSet, jsGet, h]
    · simp [jsSet, jsGet, h, ih]

theorem jsGet_set_ne (o : JsObj) (k : String) (v : JsVal) (k' : String)
    (h : k ≠ k') : jsGet (jsSet o k v) k' = jsGet o k' := by
  induction o with
  | nil => simp [jsSet, jsGet, h]
  | cons p t ih =>
    by_cases hp : p.1 = k
    · simp [jsSet, jsGet, hp, h]
    · simp only [jsSet, hp, if_false]
      by_cases hp' : p.1 = k'
      · simp [jsGet, hp']
      · simp [jsGet, hp', ih]

theorem jsGet_delete_self (o : JsObj) (k : String) :
    jsGet (jsDelete o k) k = .undefined := by
  induction o with
  | nil => simp [jsDelete, jsGet]
  | cons p t ih =>
    by_cases h : p.1 = k
    · simp [jsDelete, h, ih]
    · simp [jsDelete, jsGet, h, ih]

theorem jsGet_delete_ne (o : JsObj) (k k' : String) (h : k ≠ k') :
    jsGet (jsDelete o k) k' = jsGet o k' := by
  induction o with
  | nil => simp [jsDelete]
  | cons p t ih =>
    by_cases hp : p.1 = k
    · simp [jsDelete, jsGet, hp, h, ih]
    · simp [jsDelete, jsGet, hp, ih]

theorem keysOf_nil : keysOf ([] : JsObj) = [] := rfl

theorem keysOf_cons (p : String × JsVal) (t : JsObj) :
    keysOf (p :: t) = p.1 :: keysOf t := rfl

theorem mem_keysOf_delete (o : JsObj) (k k' : String) :
    k' ∈ keysOf (jsDelete o k) ↔ k' ∈ keysOf o ∧ k' ≠ k := by
  induction o with
  | nil => simp [jsDelete, keysOf_nil]
  | cons p t ih =>
    by_cases hp : p.1 = k
    · rw [jsDelete]
      simp only [hp, if_true, keysOf_cons, List.mem_cons, ih]
      constructor
      · rintro ⟨hm, hne⟩
        exact ⟨Or.inr hm, hne⟩
      · rintro ⟨hor, hne⟩
        rcases hor with h | h
        · exact absurd h hne
        · exact ⟨h, hne⟩
    · rw [jsDelete]
      simp only [hp, if_false, keysOf_cons, List.mem_cons, ih]
      constructor
      · rintro (h | ⟨hm, hne⟩)
        · exact ⟨Or.inl h, fun hc => hp (h.symm.trans hc)⟩
        · exact ⟨Or.inr hm, hne⟩
      · rintro ⟨hor, hne⟩
        rcases hor with h | h
        · exact Or.inl h
        · exact Or.inr ⟨h, hne⟩

theorem mem_delete (o : JsObj) (k : String) (p : String × JsVal) :
    p ∈ jsDelete o k ↔ p ∈ o ∧ p.1 ≠ k := by
  induction o with
  | nil => simp [jsDelete]
  | cons q t ih =>
    by_cases hq : q.1 = k
    · rw [jsDelete]
      simp only [hq, if_true, List.mem_cons, ih]
      constructor
      · rintro ⟨hm, hne⟩
        exact ⟨Or.inr hm, hne⟩
      · rintro ⟨hor, hne⟩
        rcases hor with h | h
        · refine absurd ?_ hne
          have h1 := congrArg Prod.fst h
          rw [h1]
          exact hq
        · exact ⟨h, hne⟩
    · rw [jsDelete]
      simp only [hq, if_false, List.mem_cons, ih]
      constructor
      · rintro (h | ⟨hm, hne⟩)
        · exact ⟨Or.inl h, fun hc => hq (((congrArg Prod.fst h).symm).trans hc)⟩
        · exact ⟨Or.inr hm, hne⟩
      · rintro ⟨hor, hne⟩
        rcases hor with h | h
        · exact Or.inl h
        · exact Or.inr ⟨h, hne⟩

theorem nodup_keysOf_delete (o : JsObj) (k : String)
    (h : (keysOf o).Nodup) : (keysOf (jsDelete o k)).Nodup := by
  induction o with
  | nil => simp [jsDelete, keysOf_nil]
  | cons p t ih =>
    rw [keysOf_cons, List.nodup_cons] at h
    by_cases hp : p.1 = k
    · rw [jsDelete]
      simp only [hp, if_true]
      exact ih h.2
    · rw [jsDelete]
      simp only [hp, if_false, keysOf_cons, List.nodup_cons]
      refine ⟨fun hm => ?_, ih h.2⟩
      rw [mem_keysOf_delete] at hm
      exact h.1 hm.1

theorem mem_keysOf_deleteAll (o : JsObj) (ks : List String) (k : String) :
    k ∈ keysOf (deleteAll o ks) ↔ k ∈ keysOf o ∧ k ∉ ks := by
  induction ks generalizing o with
  | nil => simp [deleteAll]
  | cons x xs ih =>
    rw [deleteAll, List.foldl_cons, ← deleteAll, ih, mem_keysOf_delete]
    simp only [List.mem_cons]
    constructor
    · rintro ⟨⟨hm, hne⟩, hn⟩
      exact ⟨hm, fun hc => hc.elim (fun h => hne h) (fun h => hn h)⟩
    · rintro ⟨hm, hn⟩
      exact ⟨⟨hm, fun h => hn (Or.inl h)⟩, fun h => hn (Or.inr h)⟩

theorem mem_deleteAll (o : JsObj) (ks : List String) (p : String × JsVal) :
    p ∈ deleteAll o ks ↔ p ∈ o ∧ p.1 ∉ ks := by
  induction ks generalizing o with
  | nil => simp [deleteAll]
  | cons x xs ih =>
    rw [deleteAll, List.foldl_cons, ← deleteAll, ih, mem_delete]
    simp only [List.mem_cons]
    constructor
    · rintro ⟨⟨hm, hne⟩, hn⟩
      exact ⟨hm, fun hc => hc.elim (fun h => hne h) (fun h => hn h)⟩
    · rintro ⟨hm, hn⟩
      exact ⟨⟨hm, fun h => hn (Or.inl h)⟩, fun h => hn (Or.inr h)⟩

theorem nodup_keysOf_deleteAll (o : JsObj) (ks : List String)
    (h : (keysOf o).Nodup) : (keysOf (deleteAll o ks)).Nodup := by
  induction ks generalizing o with
  | nil => simpa [deleteAll] using h
  | cons x xs ih =>
    rw [deleteAll, List.foldl_cons, ← deleteAll]
    exact ih _ (nodup_keysOf_delete _ _ h)

theorem jsGet_deleteAll_not_mem (o : JsObj) (ks : List String) (k : String)
    (h : k ∉ ks) : jsGet (deleteAll o ks) k = jsGet o k := by
  induction ks generalizing o with
  | nil => simp [deleteAll]
  | cons x xs ih =>
    rw [deleteAll, List.foldl_cons, ← deleteAll]
    rw [ih _ (fun hm => h (List.mem_cons_of_mem _ hm))]
    exact jsGet_delete_ne _ _ _ (fun hx => h (hx ▸ List.mem_cons_self _ _))

theorem passThrough_get_not_mem (attrs : JsObj) (p : JsObj) (k : String)
    (h : k ∉ keysOf attrs) : jsGet (passThrough attrs p) k = jsGet p k := by
  induction attrs generalizing p with
  | nil => simp [passThrough]
  | cons q t ih =>
    rw [keysOf, List.map_cons, List.mem_cons] at h
    push_neg at h
    rw [passThrough, List.foldl_cons, ← passThrough, ih _ h.2]
    exact jsGet_set_ne _ _ _ _ (fun hq => h.1 hq.symm)

theorem passThrough_get_mem (attrs : JsObj) (p : JsObj) (k : String) (v : JsVal)
    (hnd : (keysOf attrs).Nodup) (hm : (k, v) ∈ attrs) :
    jsGet (passThrough attrs p) k = v := by
  induction attrs generalizing p with
  | nil => simp at hm
  | cons q t ih =>
    rw [keysOf, List.map_cons, List.nodup_cons] at hnd
    rcases List.mem_cons.mp hm with h | h
    · have hq : q.1 = k := by rw [← h]
      have hv : q.2 = v := by rw [← h]
      rw [passThrough, List.foldl_cons, ← passThrough]
      rw [passThrough_get_not_mem _ _ _ (hq ▸ hnd.1), hq, hv]
      exact jsGet_set_self _ _ _
    · rw [passThrough, List.foldl_cons, ← passThrough]
      exact ih _ hnd.2 h

/-! ## Mapping-loop step lemmas -/

theorem otherStep_snd (pm : List (String × String)) (key : String)
    (st : JsObj × JsObj) : (otherStep pm key st).2 = jsDelete st.2 (resolve pm key) := rfl

theorem otherStep_fst_get_ne (pm : List (String × String)) (key : String)
    (st : JsObj × JsObj) (k' : String) (h : key ≠ k') :
    jsGet (otherStep pm key st).1 k' = jsGet st.1 k' := by
  rw [otherStep]
  cases hv : jsGet st.2 (resolve pm key) with
  | arr xs => simpa [hv] using jsGet_set_ne _ _ _ _ h
  | undefined => simp [hv, jsTruthy]
  | null => simp [hv, jsTruthy]
  | str s =>
    by_cases hs : s.isEmpty
    · simp [hv, jsTruthy, hs]
    · simpa [hv, jsTruthy, hs] using jsGet_set_ne _ _ _ _ h
  | obj o => simpa [hv, jsTruthy] using jsGet_set_ne _ _ _ _ h

theorem otherStep_fst_get_self_truthy (pm : List (String × String)) (key : String)
    (st : JsObj × JsObj) (h : jsTruthy (jsGet st.2 (resolve pm key)) = true) :
    jsGet (otherStep pm key st).1 key = selectVal (jsGet st.2 (resolve pm key)) := by
  rw [otherStep]
  cases hv : jsGet st.2 (resolve pm key) with
  | arr xs => simpa [hv, selectVal] using jsGet_set_self _ _ _
  | undefined => rw [hv] at h; simp [jsTruthy] at h
  | null => rw [hv] at h; simp [jsTruthy] at h
  | str s =>
    rw [hv] at h
    simp only [jsTruthy] at h
    simpa [hv, jsTruthy, h, selectVal] using jsGet_set_self _ _ _
  | obj o => simpa [hv, jsTruthy, selectVal] using jsGet_set_self _ _ _

theorem nameStep_snd (pm : List (String × String)) (st : JsObj × JsObj) :
    (nameStep pm st).2 =
      jsDelete (jsDelete (jsDelete st.2 (resolve pm "familyName"))
        (resolve pm "givenName")) (resolve pm "middleName") := rfl

theorem nameStep_fst_get_ne (pm : List (String × String)) (st : JsObj × JsObj)
    (k' : String) (h : "name" ≠ k') :
    jsGet (nameStep pm st).1 k' = jsGet st.1 k' := by
  rw [nameStep]
  exact jsGet_set_ne _ _ _ _ h

theorem emailsStep_snd (pm : List (String × String)) (st : JsObj × JsObj) :
    (emailsStep pm st).2 = jsDelete st.2 (resolve pm "emails") := rfl

theorem emailsStep_fst_get_ne (pm : List (String × String)) (st : JsObj × JsObj)
    (k' : String) (h : "emails" ≠ k') :
    jsGet (emailsStep pm st).1 k' = jsGet st.1 k' := by
  rw [emailsStep]
  exact jsGet_set_ne _ _ _ _ h

theorem emailsStep_fst_get_self (pm : List (String × String)) (st : JsObj × JsObj) :
    jsGet (emailsStep pm st).1 "emails" = emailsValue (jsGet st.2 (resolve pm "emails")) := by
  rw [emailsStep]
  exact jsGet_set_self _ _ _

theorem emailsValue_isArr (v : JsVal) : ∃ xs, emailsValue v = .arr xs := by
  cases v with
  | arr xs =>
    cases xs with
    | nil => exact ⟨[], rfl⟩
    | cons x t =>
      by_cases h : typeofObject x = true
      · exact ⟨x :: t, by simp [emailsValue, h]⟩
      · exact ⟨(x :: t).map wrapEmail, by simp [emailsValue, h]⟩
  | undefined => exact ⟨[.undefined], rfl⟩
  | null => exact ⟨[.null], rfl⟩
  | str s => exact ⟨[.str s], rfl⟩
  | obj o => exact ⟨[.obj o], rfl⟩

theorem jsSet_name_fields (f0 g0 m0 x y z : JsVal) :
    jsSet (jsSet (jsSet [("familyName", f0), ("givenName", g0), ("middleName", m0)]
      "familyName" x) "givenName" y) "middleName" z =
      [("familyName", x), ("givenName", y), ("middleName", z)] := rfl

theorem nameStep_fst_get_name (pm : List (String × String)) (st : JsObj × JsObj)
    (f0 g0 m0 : JsVal)
    (h : jsGet st.1 "name" = .obj [("familyName", f0), ("givenName", g0), ("middleName", m0)]) :
    jsGet (nameStep pm st).1 "name" =
      .obj [("familyName", selectVal (jsGet st.2 (resolve pm "familyName"))),
            ("givenName", selectVal (jsGet (jsDelete st.2 (resolve pm "familyName"))
              (resolve pm "givenName"))),
            ("middleName", selectVal (jsGet (jsDelete (jsDelete st.2
              (resolve pm "familyName")) (resolve pm "givenName"))
              (resolve pm "middleName")))] := by
  rw [nameStep]
  simp only [h]
  rw [jsGet_set_self, jsSet_name_fields]

theorem mapSteps_snd (pm : List (String × String)) (st : JsObj × JsObj) :
    (mapSteps pm st).2 = deleteAll st.2 (consumedKeys pm) := by
  rw [mapSteps, emailsStep_snd, nameStep_snd, otherStep_snd, otherStep_snd,
    otherStep_snd, consumedKeys, deleteAll]
  simp [List.foldl_cons]

/-- The profile value of a key that survives the mapping loop's deletions
is whatever the loop itself left there. -/
theorem mapProfile_get_eq_mapSteps (pm : List (String × String)) (u : String)
    (eid : JsVal) (attrs0 : JsObj) (k : String)
    (hk : k ∈ keysOf attrs0 → k ∈ consumedKeys pm) :
    jsGet (mapProfile pm u eid attrs0) k =
      jsGet (mapSteps pm (initProfile u eid attrs0, attrs0)).1 k := by
  rw [mapProfile]
  refine passThrough_get_not_mem _ _ _ ?_
  rw [mapSteps_snd, mem_keysOf_deleteAll]
  rintro ⟨hm, hn⟩
  exact hn (hk hm)

/-! ## Claim C9 — session replacement on successful validation -/

/-- C9: on every successful validation the session entry under the
configured key is replaced, before the verify callback runs, by a fresh
object: an empty one when no PGT callback URL is configured (erasing any
previously stored PGTIOU), and one holding exactly the returned PGTIOU
when one is configured.  The resulting entry does not depend on the prior
session contents at all. -/
theorem c9_session_replaced (strat : Strategy) (sess : JsObj) (username : String)
    (ext : Extended) :
    jsGet (onValidationSuccess strat sess username ext).session strat.casSessionKey =
      .obj (if strat.casPgtUrl.isSome then [("PGTIOU", ext.PGTIOU)] else []) := by
  rw [onValidationSuccess]
  simp only
  rw [sessionAfterSuccess]
  cases strat.casPgtUrl with
  | none => simpa using jsGet_set_self _ _ _
  | some u => simpa using jsGet_set_self _ _ _

/-! ## Claim C7 — `getProxyTicket` failure cases -/

/-- C7: `getProxyTicket` fails with the no-session error when the request
has no session storage, with the not-authenticated error when the session
has no (truthy) record under the CAS session key, and with the missing
proxy-grant error when that record holds no (truthy) PGTIOU; in each case
the result is a bare failure carrying only the error, never the CAS
client's proxy-ticket exchange. -/
theorem c7_getProxyTicket_failures :
    (∀ (strat : Strategy) (t : String),
      getProxyTicket strat none t = .failure "Session is not found" ∧
      ∀ p g, getProxyTicket strat none t ≠ .exchange p g) ∧
    (∀ (strat : Strategy) (sess : JsObj) (t : String),
      jsTruthy (jsGet sess strat.casSessionKey) = false →
      getProxyTicket strat (some sess) t = .failure "User is not authenticated with CAS" ∧
      ∀ p g, getProxyTicket strat (some sess) t ≠ .exchange p g) ∧
    (∀ (strat : Strategy) (sess : JsObj) (t : String),
      jsTruthy (jsGet sess strat.casSessionKey) = true →
      jsTruthy (jsGetProp (jsGet sess strat.casSessionKey) "PGTIOU") = false →
      getProxyTicket strat (some sess) t =
        .failure "PGTIOU token not found. Make sure pgtURL option is correct, and the CAS server allows proxies." ∧
      ∀ p g, getProxyTicket strat (some sess) t ≠ .exchange p g) := by
  refine ⟨fun strat t => ?_, fun strat sess t h => ?_, fun strat sess t h1 h2 => ?_⟩
  · exact ⟨rfl, fun p g h => ProxyStep.noConfusion h⟩
  · have he : getProxyTicket strat (some sess) t =
        .failure "User is not authenticated with CAS" := by
      rw [getProxyTicket, h]
      simp
    exact ⟨he, fun p g hc => ProxyStep.noConfusion (he ▸ hc)⟩
  · have he : getProxyTicket strat (some sess) t =
        .failure "PGTIOU token not found. Make sure pgtURL option is correct, and the CAS server allows proxies." := by
      rw [getProxyTicket, h1]
      simp [h2]
    exact ⟨he, fun p g hc => ProxyStep.noConfusion (he ▸ hc)⟩

/-- Witness for C7: evaluating the three failure cases on concrete
sessions. -/
theorem c7_getProxyTicket_failures_witness :
    getProxyTicket { casBaseUrl := "https://cas.example.org/cas" } none "https://svc" =
      .failure "Session is not found" ∧
    getProxyTicket { casBaseUrl := "https://cas.example.org/cas" } (some []) "https://svc" =
      .failure "User is not authenticated with CAS" ∧
    getProxyTicket { casBaseUrl := "https://cas.example.org/cas" }
        (some [("cas", .obj [])]) "https://svc" =
      .failure "PGTIOU token not found. Make sure pgtURL option is correct, and the CAS server allows proxies." :=
  ⟨(c7_getProxyTicket_failures.1 { casBaseUrl := "https://cas.example.org/cas" }
      "https://svc").1,
   (c7_getProxyTicket_failures.2.1 { casBaseUrl := "https://cas.example.org/cas" }
      [] "https://svc" rfl).1,
   (c7_getProxyTicket_failures.2.2 { casBaseUrl := "https://cas.example.org/cas" }
      [("cas", .obj [])] "https://svc" rfl rfl).1⟩

/-! ## Claim C10 — the provider tag is not invariant -/

/-- C10: the mapping loop also iterates the `provider` key, so with the
default resolution (no `provider` entry in the property map) a truthy
`provider` extended attribute overwrites the constant `"CAS"`: the
resulting profile's provider is the attribute value (its first element
when it is an array). -/
theorem c10_provider_overwritten (pm : List (String × String)) (u : String)
    (eid : JsVal) (attrs0 : JsObj)
    (hpm : resolve pm "provider" = "provider")
    (ht : jsTruthy (jsGet attrs0 "provider") = true) :
    jsGet (mapProfile pm u eid attrs0) "provider" = selectVal (jsGet attrs0 "provider") := by
  have hk : "provider" ∈ keysOf attrs0 → "provider" ∈ consumedKeys pm := by
    intro _
    rw [consumedKeys, hpm]
    exact List.mem_cons_self _ _
  rw [mapProfile_get_eq_mapSteps pm u eid attrs0 "provider" hk, mapSteps]
  rw [emailsStep_fst_get_ne _ _ _ (by decide)]
  rw [nameStep_fst_get_ne _ _ _ (by decide)]
  rw [otherStep_fst_get_ne _ _ _ _ (by decide)]
  rw [otherStep_fst_get_ne _ _ _ _ (by decide)]
  rw [otherStep_fst_get_self_truthy _ _ _ (by rw [hpm]; exact ht)]
  rw [hpm]

/-- Witness for C10: a `provider` attribute replaces the `"CAS"` tag. -/
theorem c10_provider_overwritten_witness :
    jsGet (mapProfile [] "u" .undefined [("provider", .str "LDAP")]) "provider" =
      .str "LDAP" :=
  c10_provider_overwritten [] "u" .undefined [("provider", .str "LDAP")] rfl rfl

/-! ## Claim C6 — unconsumed attributes pass through unchanged -/

/-- C6: every attribute whose key is not consumed by the mapping loop
(i.e. not one of the seven resolved attribute names) ends up on the
profile under its original name with its value unchanged — no such
attribute is dropped. -/
theorem c6_passthrough_unchanged (pm : List (String × String)) (u : String)
    (eid : JsVal) (attrs0 : JsObj) (k : String) (v : JsVal)
    (hnd : (keysOf attrs0).Nodup)
    (hm : (k, v) ∈ attrs0)
    (hk : k ∉ consumedKeys pm) :
    jsGet (mapProfile pm u eid attrs0) k = v := by
  rw [mapProfile]
  refine passThrough_get_mem _ _ _ _ ?_ ?_
  · rw [mapSteps_snd]
    exact nodup_keysOf_deleteAll _ _ hnd
  · rw [mapSteps_snd, mem_deleteAll]
    exact ⟨hm, hk⟩

/-- Witness for C6: an attribute not referenced by the property map or the
fixed profile fields is copied through verbatim. -/
theorem c6_passthrough_unchanged_witness :
    jsGet (mapProfile [("emails", "defaultmail")] "u" .undefined
      [("department", .str "physics")]) "department" = .str "physics" :=
  c6_passthrough_unchanged [("emails", "defaultmail")] "u" .undefined
    [("department", .str "physics")] "department" (.str "physics")
    (by decide) (List.mem_cons_self _ _) (by decide)

/-! ## Claim C5 — the profile shape invariant (corrected)

The pass-through loop copies any leftover attribute named `name` or
`emails` straight over the structured fields, so the invariant only holds
when no such attribute survives the mapping loop. -/

/-- C5 counterexample: with an extended attribute literally named `name`
(and an empty property map, so nothing consumes it), the pass-through
overwrites the structured name record with the raw attribute value — the
resulting profile's `name` is the string `"X"`, not a record. -/
theorem c5_counterexample :
    jsGet (mapProfile [] "u" .undefined [("name", JsVal.str "X")]) "name" = JsVal.str "X" ∧
    jsIsObj (jsGet (mapProfile [] "u" .undefined [("name", JsVal.str "X")]) "name") = false :=
  ⟨rfl, rfl⟩

/-- C5 (amended): provided no *unconsumed* extended attribute is named
`name` or `emails`, the produced profile always contains the structured
name record with its `familyName`/`givenName`/`middleName` fields and an
array under `emails`, whatever the attributes and property map. -/
theorem c5_profile_shape (pm : List (String × String)) (u : String)
    (eid : JsVal) (attrs0 : JsObj)
    (hname : "name" ∈ keysOf attrs0 → "name" ∈ consumedKeys pm)
    (hemails : "emails" ∈ keysOf attrs0 → "emails" ∈ consumedKeys pm) :
    (∃ f g m, jsGet (mapProfile pm u eid attrs0) "name" =
      .obj [("familyName", f), ("givenName", g), ("middleName", m)]) ∧
    (∃ xs, jsGet (mapProfile pm u eid attrs0) "emails" = .arr xs) := by
  constructor
  · rw [mapProfile_get_eq_mapSteps pm u eid attrs0 "name" hname, mapSteps]
    rw [emailsStep_fst_get_ne _ _ _ (by decide)]
    have hinit : jsGet (otherStep pm "displayName" (otherStep pm "id"
        (otherStep pm "provider" (initProfile u eid attrs0, attrs0)))).1 "name" =
        .obj [("familyName", .null), ("givenName", .null), ("middleName", .null)] := by
      rw [otherStep_fst_get_ne _ _ _ _ (by decide)]
      rw [otherStep_fst_get_ne _ _ _ _ (by decide)]
      rw [otherStep_fst_get_ne _ _ _ _ (by decide)]
      rfl
    rw [nameStep_fst_get_name _ _ _ _ _ hinit]
    exact ⟨_, _, _, rfl⟩
  · rw [mapProfile_get_eq_mapSteps pm u eid attrs0 "emails" hemails, mapSteps]
    rw [emailsStep_fst_get_self]
    exact emailsValue_isArr _

/-- Witness for C5 (amended): a successful validation with no extended
attributes at all still yields the structured name record and the emails
array. -/
theorem c5_profile_shape_witness :
    (∃ f g m, jsGet (mapProfile [] "u" .undefined []) "name" =
      .obj [("familyName", f), ("givenName", g), ("middleName", m)]) ∧
    (∃ xs, jsGet (mapProfile [] "u" .undefined []) "emails" = .arr xs) :=
  c5_profile_shape [] "u" .undefined [] (by decide) (by decide)

/-! ## Claim C4 — name-field mapping (corrected)

When a name attribute is absent the source assigns the lookup result
as-is, which is `undefined`, not the `null` the claim states (the initial
`null` literal is overwritten). -/

/-- C4 counterexample: exactly the claim's example — attributes
`{surname: "Doe", givenname: "Jane"}` with
`propertyMap {familyName: "surname", givenName: "givenname"}` — yields
`middleName` as `undefined`, not `null`. -/
theorem c4_counterexample :
    jsGetProp (jsGet (mapProfile [("familyName", "surname"), ("givenName", "givenname")]
      "jdoe" JsVal.undefined [("surname", JsVal.str "Doe"), ("givenname", JsVal.str "Jane")])
      "name") "middleName" = JsVal.undefined ∧
    (JsVal.undefined = JsVal.null → False) :=
  ⟨rfl, fun h => JsVal.noConfusion h⟩

/-- C4 (amended): when the three name fields resolve to attribute names
distinct from each other and from the names consumed earlier in the loop,
each name field is the attribute's first element when it is an array, the
raw value otherwise, and `undefined` (not `null`) when it is absent. -/
theorem c4_name_mapping (pm : List (String × String)) (u : String)
    (eid : JsVal) (attrs0 : JsObj)
    (h1 : resolve pm "familyName" ∉
      [resolve pm "provider", resolve pm "id", resolve pm "displayName"])
    (h2 : resolve pm "givenName" ∉
      [resolve pm "provider", resolve pm "id", resolve pm "displayName",
       resolve pm "familyName"])
    (h3 : resolve pm "middleName" ∉
      [resolve pm "provider", resolve pm "id", resolve pm "displayName",
       resolve pm "familyName", resolve pm "givenName"])
    (hname : "name" ∈ keysOf attrs0 → "name" ∈ consumedKeys pm) :
    jsGet (mapProfile pm u eid attrs0) "name" =
      .obj [("familyName", selectVal (jsGet attrs0 (resolve pm "familyName"))),
            ("givenName", selectVal (jsGet attrs0 (resolve pm "givenName"))),
            ("middleName", selectVal (jsGet attrs0 (resolve pm "middleName")))] := by
  simp only [List.mem_cons, List.not_mem_nil, or_false, not_or] at h1 h2 h3
  rw [mapProfile_get_eq_mapSteps pm u eid attrs0 "name" hname, mapSteps]
  rw [emailsStep_fst_get_ne _ _ _ (by decide)]
  have hinit : jsGet (otherStep pm "displayName" (otherStep pm "id"
      (otherStep pm "provider" (initProfile u eid attrs0, attrs0)))).1 "name" =
      .obj [("familyName", .null), ("givenName", .null), ("middleName", .null)] := by
    rw [otherStep_fst_get_ne _ _ _ _ (by decide)]
    rw [otherStep_fst_get_ne _ _ _ _ (by decide)]
    rw [otherStep_fst_get_ne _ _ _ _ (by decide)]
    rfl
  rw [nameStep_fst_get_name _ _ _ _ _ hinit]
  simp only [otherStep_snd]
  rw [jsGet_delete_ne _ _ _ (Ne.symm h1.2.2), jsGet_delete_ne _ _ _ (Ne.symm h1.2.1),
    jsGet_delete_ne _ _ _ (Ne.symm h1.1)]
  rw [jsGet_delete_ne _ _ _ (Ne.symm h2.2.2.2), jsGet_delete_ne _ _ _ (Ne.symm h2.2.2.1),
    jsGet_delete_ne _ _ _ (Ne.symm h2.2.1), jsGet_delete_ne _ _ _ (Ne.symm h2.1)]
  rw [jsGet_delete_ne _ _ _ (Ne.symm h3.2.2.2.2), jsGet_delete_ne _ _ _ (Ne.symm h3.2.2.2.1),
    jsGet_delete_ne _ _ _ (Ne.symm h3.2.2.1), jsGet_delete_ne _ _ _ (Ne.symm h3.2.1),
    jsGet_delete_ne _ _ _ (Ne.symm h3.1)]

/-- Witness for C4 (amended): the claim's own example, with `middleName`
coming out as `undefined`. -/
theorem c4_name_mapping_witness :
    jsGet (mapProfile [("familyName", "surname"), ("givenName", "givenname")] "jdoe"
      .undefined [("surname", JsVal.str "Doe"), ("givenname", JsVal.str "Jane")]) "name" =
      .obj [("familyName", JsVal.str "Doe"), ("givenName", JsVal.str "Jane"),
            ("middleName", JsVal.undefined)] :=
  c4_name_mapping [("familyName", "surname"), ("givenName", "givenname")] "jdoe"
    .undefined [("surname", JsVal.str "Doe"), ("givenname", JsVal.str "Jane")]
    (by decide) (by decide) (by decide) (by decide)

/-! ## Claim C3 — emails mapping -/

/-- C3: with the emails attribute resolved through the property map
(default `emails`) and not aliased to an earlier-consumed attribute, a
sequence of scalar emails is wrapped element-wise as
`{value, type: "default"}` in order, a sequence of structured records is
kept unchanged, and a single scalar becomes a one-element sequence; and
the claim's concrete example maps `defaultmail` to the two wrapped
records. -/
theorem c3_emails_mapping :
    (∀ (pm : List (String × String)) (u : String) (eid : JsVal) (attrs0 : JsObj),
      resolve pm "emails" ∉
        [resolve pm "provider", resolve pm "id", resolve pm "displayName",
         resolve pm "familyName", resolve pm "givenName", resolve pm "middleName"] →
      ("emails" ∈ keysOf attrs0 → "emails" ∈ consumedKeys pm) →
      (∀ xs, jsGet attrs0 (resolve pm "emails") = .arr xs →
        ((∀ x ∈ xs, ∃ s, x = JsVal.str s) →
          jsGet (mapProfile pm u eid attrs0) "emails" = .arr (xs.map wrapEmail)) ∧
        ((∀ x ∈ xs, jsIsObj x = true) →
          jsGet (mapProfile pm u eid attrs0) "emails" = .arr xs)) ∧
      (∀ s, jsGet attrs0 (resolve pm "emails") = .str s →
        jsGet (mapProfile pm u eid attrs0) "emails" = .arr [.str s])) ∧
    jsGet (mapProfile [("emails", "defaultmail")] "u" .undefined
        [("defaultmail", .arr [.str "a@x.com", .str "b@x.com"])]) "emails" =
      .arr [.obj [("value", .str "a@x.com"), ("type", .str "default")],
            .obj [("value", .str "b@x.com"), ("type", .str "default")]] := by
  constructor
  · intro pm u eid attrs0 hek hemails
    simp only [List.mem_cons, List.not_mem_nil, or_false, not_or] at hek
    have hbase : jsGet (mapProfile pm u eid attrs0) "emails" =
        emailsValue (jsGet attrs0 (resolve pm "emails")) := by
      rw [mapProfile_get_eq_mapSteps pm u eid attrs0 "emails" hemails, mapSteps]
      rw [emailsStep_fst_get_self]
      simp only [nameStep_snd, otherStep_snd]
      rw [jsGet_delete_ne _ _ _ (Ne.symm hek.2.2.2.2.2),
        jsGet_delete_ne _ _ _ (Ne.symm hek.2.2.2.2.1),
        jsGet_delete_ne _ _ _ (Ne.symm hek.2.2.2.1),
        jsGet_delete_ne _ _ _ (Ne.symm hek.2.2.1),
        jsGet_delete_ne _ _ _ (Ne.symm hek.2.1),
        jsGet_delete_ne _ _ _ (Ne.symm hek.1)]
    refine ⟨fun xs hxs => ⟨fun hstr => ?_, fun hobj => ?_⟩, fun s hs => ?_⟩
    · rw [hbase, hxs]
      cases xs with
      | nil => rfl
      | cons x t =>
        obtain ⟨s, hx⟩ := hstr x (List.mem_cons_self _ _)
        subst hx
        simp [emailsValue, typeofObject]
    · rw [hbase, hxs]
      cases xs with
      | nil => rfl
      | cons x t =>
        have hx := hobj x (List.mem_cons_self _ _)
        cases x with
        | obj o => simp [emailsValue, typeofObject]
        | undefined => simp [jsIsObj] at hx
        | null => simp [jsIsObj] at hx
        | str s => simp [jsIsObj] at hx
        | arr a => simp [jsIsObj] at hx
    · rw [hbase, hs]
      rfl
  · rfl

/-- Witness for C3: the general scalar-sequence case applied to the
spec's own example input. -/
theorem c3_emails_mapping_witness :
    jsGet (mapProfile [("emails", "defaultmail")] "u" .undefined
        [("defaultmail", .arr [.str "a@x.com", .str "b@x.com"])]) "emails" =
      .arr ([JsVal.str "a@x.com", JsVal.str "b@x.com"].map wrapEmail) :=
  ((c3_emails_mapping.1 [("emails", "defaultmail")] "u" .undefined
      [("defaultmail", .arr [.str "a@x.com", .str "b@x.com"])]
      (by decide) (by decide)).1
    [JsVal.str "a@x.com", JsVal.str "b@x.com"] rfl).1
    (by intro x hx
        rcases List.mem_cons.mp hx with h | h
        · exact ⟨"a@x.com", h⟩
        · rcases List.mem_cons.mp h with h' | h'
          · exact ⟨"b@x.com", h'⟩
          · simp at h')

/-! ## Character-class and codec lemmas -/

theorem alphanum_toNat_lt (c : Char) (h : c.isAlphanum = true) : c.toNat < 128 := by
  simp [Char.isAlphanum, Char.isAlpha, Char.isDigit, Char.isUpper, Char.isLower] at h
  rcases h with (⟨h1, h2⟩ | ⟨h1, h2⟩) | ⟨h1, h2⟩ <;>
  · have hb : c.val.toNat ≤ 122 := le_trans (by exact h2) (by decide)
    show c.val.toNat < 128
    omega

theorem alphanum_ne (c : Char) (d : Char) (h : c.isAlphanum = true)
    (hd : d.isAlphanum = false) : c ≠ d := by
  intro he
  rw [he] at h
  rw [h] at hd
  cases hd

theorem uriUnreserved_of_alphanum (c : Char) (h : c.isAlphanum = true) :
    uriUnreserved c = true := by
  simp [uriUnreserved, h]

theorem encodeChar_unreserved (c : Char) (h : uriUnreserved c = true) :
    encodeChar c = [c] := by
  simp [encodeChar, h]

theorem percentEncode_nil : percentEncode [] = [] := rfl

theorem percentEncode_cons (c : Char) (l : List Char) :
    percentEncode (c :: l) = encodeChar c ++ percentEncode l := rfl

theorem percentEncode_id (l : List Char) (h : ∀ c ∈ l, uriUnreserved c = true) :
    percentEncode l = l := by
  induction l with
  | nil => rfl
  | cons c t ih =>
    rw [percentEncode_cons, encodeChar_unreserved c (h c (List.mem_cons_self _ _)),
      ih (fun x hx => h x (List.mem_cons_of_mem _ hx))]
    rfl

theorem percentDecode_cons_ne (c : Char) (rest : List Char) (h : c ≠ '%') :
    percentDecode (c :: rest) = c :: percentDecode rest := by
  conv_lhs => rw [percentDecode.eq_def]
  simp [h]

theorem percentDecode_no_percent (l : List Char) (h : ∀ c ∈ l, c ≠ '%') :
    percentDecode l = l := by
  induction l with
  | nil => rfl
  | cons c t ih =>
    rw [percentDecode_cons_ne c t (h c (List.mem_cons_self _ _)),
      ih (fun x hx => h x (List.mem_cons_of_mem _ hx))]

theorem percentDecode_triple (h1 h2 : Char) (rest : List Char)
    (hh1 : isHexDigit h1 = true) (hh2 : isHexDigit h2 = true) :
    percentDecode ('%' :: h1 :: h2 :: rest) =
      Char.ofNat (hexVal h1 * 16 + hexVal h2) :: percentDecode rest := by
  simp [percentDecode, hh1, hh2]

theorem isHexDigit_hexDigitChar (n : Nat) (h : n < 16) :
    isHexDigit (hexDigitChar n) = true := by
  interval_cases n <;> decide

theorem hexVal_hexDigitChar (n : Nat) (h : n < 16) :
    hexVal (hexDigitChar n) = n := by
  interval_cases n <;> decide

theorem percentDecode_percentEncode (l : List Char) (h : ∀ c ∈ l, c.toNat < 128) :
    percentDecode (percentEncode l) = l := by
  induction l with
  | nil => rfl
  | cons c t ih =>
    rw [percentEncode_cons]
    have hc := h c (List.mem_cons_self _ _)
    have ht := ih (fun x hx => h x (List.mem_cons_of_mem _ hx))
    by_cases hu : uriUnreserved c = true
    · rw [encodeChar_unreserved c hu]
      have hne : c ≠ '%' := by
        intro he
        rw [he] at hu
        exact absurd hu (by decide)
      rw [List.cons_append, List.nil_append, percentDecode_cons_ne _ _ hne, ht]
    · have hlt : c.toNat < 256 := lt_trans hc (by omega)
      have henc : encodeChar c =
          ['%', hexDigitChar (c.toNat / 16), hexDigitChar (c.toNat % 16)] := by
        simp [encodeChar, hu, hlt]
      rw [henc]
      have hd1 : c.toNat / 16 < 16 := by omega
      have hd2 : c.toNat % 16 < 16 := by omega
      rw [List.cons_append, List.cons_append, List.cons_append, List.nil_append]
      rw [percentDecode_triple _ _ _ (isHexDigit_hexDigitChar _ hd1)
        (isHexDigit_hexDigitChar _ hd2)]
      rw [hexVal_hexDigitChar _ hd1, hexVal_hexDigitChar _ hd2]
      have hv : c.toNat / 16 * 16 + c.toNat % 16 = c.toNat := by omega
      rw [hv, Char.ofNat_toNat, ht]

/-! ## Query-codec round-trip lemmas -/

theorem strExt (a b : String) (h : a.data = b.data) : a = b := by
  cases a
  cases b
  exact congrArg String.mk h

theorem takeWhile_all (p : Char → Bool) (l : List Char)
    (h : ∀ x ∈ l, p x = true) : l.takeWhile p = l := by
  induction l with
  | nil => rfl
  | cons c t ih =>
    rw [List.takeWhile_cons, h c (List.mem_cons_self _ _)]
    simp [ih (fun x hx => h x (List.mem_cons_of_mem _ hx))]

theorem takeWhile_append_not (p : Char → Bool) (l1 : List Char) (c : Char)
    (l2 : List Char) (h1 : ∀ x ∈ l1, p x = true) (hc : p c = false) :
    (l1 ++ c :: l2).takeWhile p = l1 := by
  induction l1 with
  | nil => simp [List.takeWhile_cons, hc]
  | cons a t ih =>
    rw [List.cons_append, List.takeWhile_cons, h1 a (List.mem_cons_self _ _)]
    simp [ih (fun x hx => h1 x (List.mem_cons_of_mem _ hx))]

theorem splitOnChar_ne_nil (sep : Char) (l : List Char) : splitOnChar sep l ≠ [] := by
  cases l with
  | nil => simp [splitOnChar]
  | cons c t =>
    rw [splitOnChar]
    cases h : splitOnChar sep t with
    | nil => simp
    | cons a r =>
      by_cases hc : c = sep <;> simp [hc]

theorem splitOnChar_not_mem (sep : Char) (l : List Char) (h : sep ∉ l) :
    splitOnChar sep l = [l] := by
  induction l with
  | nil => rfl
  | cons c t ih =>
    have hc : ¬c = sep := fun hc => h (hc ▸ List.mem_cons_self _ _)
    have ht := ih (fun hm => h (List.mem_cons_of_mem _ hm))
    rw [splitOnChar, ht]
    simp [hc]

theorem splitOnChar_cons_sep (sep : Char) (b : List Char) :
    splitOnChar sep (sep :: b) = [] :: splitOnChar sep b := by
  rw [splitOnChar]
  cases h : splitOnChar sep b with
  | nil => exact absurd h (splitOnChar_ne_nil _ _)
  | cons a r => simp

theorem splitOnChar_append (sep : Char) (a b : List Char) (h : sep ∉ a) :
    splitOnChar sep (a ++ sep :: b) = a :: splitOnChar sep b := by
  induction a with
  | nil => simpa using splitOnChar_cons_sep sep b
  | cons c t ih =>
    have hc : ¬c = sep := fun hc => h (hc ▸ List.mem_cons_self _ _)
    have ht := ih (fun hm => h (List.mem_cons_of_mem _ hm))
    rw [List.cons_append, splitOnChar, ht]
    simp [hc]

theorem queryChar_spec (c : Char) (h : queryChar c = true) :
    c ≠ '&' ∧ c ≠ '=' ∧ c ≠ '%' ∧ c ≠ '+' := by
  simp only [queryChar, Bool.not_eq_eq_eq_not, Bool.not_true, Bool.or_eq_false_iff,
    decide_eq_false_iff_not] at h
  exact ⟨h.1.1.1, h.1.1.2, h.1.2, h.2⟩

theorem queryChar_of_alphanum (c : Char) (h : c.isAlphanum = true) :
    queryChar c = true := by
  have h1 := alphanum_ne c '&' h (by decide)
  have h2 := alphanum_ne c '=' h (by decide)
  have h3 := alphanum_ne c '%' h (by decide)
  have h4 := alphanum_ne c '+' h (by decide)
  simp [queryChar, h1, h2, h3, h4]

theorem map_plus_id (l : List Char) (h : ∀ c ∈ l, c ≠ '+') :
    l.map (fun c => if c = '+' then ' ' else c) = l := by
  induction l with
  | nil => rfl
  | cons c t ih =>
    rw [List.map_cons, if_neg (h c (List.mem_cons_self _ _)),
      ih (fun x hx => h x (List.mem_cons_of_mem _ hx))]

theorem decodeComp_id (l : List Char) (h : ∀ c ∈ l, queryChar c = true) :
    decodeComp l = l := by
  rw [decodeComp, map_plus_id l (fun c hc => (queryChar_spec c (h c hc)).2.2.2)]
  exact percentDecode_no_percent l (fun c hc => (queryChar_spec c (h c hc)).2.2.1)

theorem parsePart_rawPair (k v : String)
    (hk : ∀ c ∈ k.data, queryChar c = true)
    (hv : ∀ c ∈ v.data, queryChar c = true) :
    parsePart (rawPair (k, v)) = (k, v) := by
  rw [parsePart, rawPair]
  have htw : (k.data ++ '=' :: v.data).takeWhile (fun c => c ≠ '=') = k.data := by
    refine takeWhile_append_not _ _ _ _ (fun x hx => ?_) (by simp)
    simpa using (queryChar_spec x (hk x hx)).2.1
  rw [htw, List.drop_left]
  simp only
  rw [decodeComp_id _ hk, decodeComp_id _ hv]

theorem amp_not_mem_rawPair (p : String × String) (h : rawOk p = true) :
    '&' ∉ rawPair p := by
  rw [rawOk, Bool.and_eq_true] at h
  intro hm
  rw [rawPair] at hm
  rcases List.mem_append.mp hm with hm | hm
  · exact (queryChar_spec _ (by simpa using List.all_eq_true.mp h.1 _ hm)).1 rfl
  · rcases List.mem_cons.mp hm with hm | hm
    · exact absurd hm.symm (by decide)
    · exact (queryChar_spec _ (by simpa using List.all_eq_true.mp h.2 _ hm)).1 rfl

theorem rawPair_ne_nil (p : String × String) : rawPair p ≠ [] := by
  rw [rawPair]
  cases h : p.1.data <;> simp

theorem fmtRaw_cons (p : String × String) (rest : List (String × String))
    (h : rest ≠ []) : fmtRaw (p :: rest) = rawPair p ++ '&' :: fmtRaw rest := by
  cases rest with
  | nil => exact absurd rfl h
  | cons q t => rfl

theorem fmtRaw_ne_nil (ps : List (String × String)) (h : ps ≠ []) :
    fmtRaw ps ≠ [] := by
  cases ps with
  | nil => exact absurd rfl h
  | cons p t =>
    cases t with
    | nil => exact rawPair_ne_nil p
    | cons q r =>
      rw [fmtRaw_cons _ _ (List.cons_ne_nil _ _)]
      simp [rawPair_ne_nil]

theorem parseQuery_fmtRaw (ps : List (String × String))
    (h : ∀ p ∈ ps, rawOk p = true) (hne : ps ≠ []) :
    parseQuery (fmtRaw ps) = ps := by
  induction ps with
  | nil => exact absurd rfl hne
  | cons p t ih =>
    have hp := h p (List.mem_cons_self _ _)
    have hk : ∀ c ∈ p.1.data, queryChar c = true := by
      rw [rawOk, Bool.and_eq_true] at hp
      exact fun c hc => by simpa using List.all_eq_true.mp hp.1 _ hc
    have hv : ∀ c ∈ p.2.data, queryChar c = true := by
      rw [rawOk, Bool.and_eq_true] at hp
      exact fun c hc => by simpa using List.all_eq_true.mp hp.2 _ hc
    cases t with
    | nil =>
      rw [fmtRaw, parseQuery.eq_def]
      have hnn := rawPair_ne_nil p
      cases hr : rawPair p with
      | nil => exact absurd hr hnn
      | cons c cs =>
        simp only
        rw [← hr, splitOnChar_not_mem _ _ (amp_not_mem_rawPair p hp), List.map_cons,
          List.map_nil]
        have : parsePart (rawPair p) = p := by
          have := parsePart_rawPair p.1 p.2 hk hv
          simpa using this
        rw [this]
    | cons q r =>
      rw [fmtRaw_cons _ _ (List.cons_ne_nil _ _), parseQuery.eq_def]
      have hply := fmtRaw_ne_nil (q :: r) (by simp)
      cases hr : rawPair p ++ '&' :: fmtRaw (q :: r) with
      | nil => simp at hr
      | cons c cs =>
        simp only
        rw [← hr, splitOnChar_append _ _ _ (amp_not_mem_rawPair p hp), List.map_cons]
        have hpp : parsePart (rawPair p) = p := by
          have := parsePart_rawPair p.1 p.2 hk hv
          simpa using this
        rw [hpp]
        have ht := ih (fun x hx => h x (List.mem_cons_of_mem _ hx)) (by simp)
        rw [parseQuery.eq_def] at ht
        cases hf : fmtRaw (q :: r) with
        | nil => exact absurd hf hply
        | cons d ds =>
          rw [hf] at ht
          simp only at ht
          rw [ht]

theorem encPair_eq_rawPair (p : String × String) (h : uriOk p = true) :
    encPair p = rawPair p := by
  rw [uriOk, Bool.and_eq_true] at h
  rw [encPair, rawPair]
  rw [percentEncode_id _ (fun c hc => by simpa using List.all_eq_true.mp h.1 _ hc)]
  rw [percentEncode_id _ (fun c hc => by simpa using List.all_eq_true.mp h.2 _ hc)]

theorem formatQuery_eq_fmtRaw (ps : List (String × String))
    (h : ∀ p ∈ ps, uriOk p = true) : formatQuery ps = fmtRaw ps := by
  induction ps with
  | nil => rfl
  | cons p t ih =>
    cases t with
    | nil =>
      rw [formatQuery, fmtRaw]
      exact encPair_eq_rawPair p (h p (List.mem_cons_self _ _))
    | cons q r =>
      rw [formatQuery, fmtRaw_cons _ _ (List.cons_ne_nil _ _),
        encPair_eq_rawPair p (h p (List.mem_cons_self _ _)),
        ih (fun x hx => h x (List.mem_cons_of_mem _ hx))]
      exact List.cons_ne_nil q r

/-! ## URL parse and format lemmas -/

theorem pathQuery_split (p q : List Char) (hp : ∀ c ∈ p, ¬c = '?') :
    pathQuery (p ++ '?' :: q) =
      ((if p.isEmpty then none else some ⟨p⟩), parseQuery q) := by
  have htw : (p ++ '?' :: q).takeWhile (fun c => c ≠ '?') = p :=
    takeWhile_append_not _ _ _ _ (fun x hx => decide_eq_true (hp x hx)) (by decide)
  simp only [pathQuery, htw, List.drop_left]

theorem pathQuery_no_sep (l : List Char) (h : ∀ c ∈ l, ¬c = '?') :
    pathQuery l = ((if l.isEmpty then none else some ⟨l⟩), []) := by
  have htw : l.takeWhile (fun c => c ≠ '?') = l :=
    takeWhile_all _ _ (fun x hx => decide_eq_true (h x hx))
  simp only [pathQuery, htw, List.drop_length]

theorem pathOk_spec (path : String) (h : pathOk path = true) :
    path.data.head? = some '/' ∧ ∀ c ∈ path.data, c = '/' ∨ c.isAlphanum = true := by
  rw [pathOk, Bool.and_eq_true] at h
  refine ⟨of_decide_eq_true h.1, fun c hc => ?_⟩
  have := List.all_eq_true.mp h.2 _ hc
  simpa using this

theorem pathOk_no_q (path : String) (h : pathOk path = true) :
    ∀ c ∈ path.data, ¬c = '?' := by
  intro c hc hq
  rcases (pathOk_spec path h).2 c hc with h' | h' <;> rw [hq] at h'
  · exact absurd h' (by decide)
  · exact absurd h' (by decide)

theorem parseUrl_mkUrl (path : String) (ps : List (String × String))
    (hpath : pathOk path = true) (hps : ∀ p ∈ ps, rawOk p = true)
    (hne : ps ≠ []) :
    parseUrl (mkUrl path ps) = ⟨none, none, some path, ps⟩ := by
  obtain ⟨hhead, _⟩ := pathOk_spec path hpath
  obtain ⟨t, hdata⟩ : ∃ t, path.data = '/' :: t := by
    cases hd : path.data with
    | nil => rw [hd] at hhead; exact absurd hhead (by simp)
    | cons c cs =>
      rw [hd] at hhead
      simp only [List.head?_cons, Option.some_inj] at hhead
      exact ⟨cs, by rw [hhead]⟩
  have hmk : (mkUrl path ps).data = path.data ++ '?' :: fmtRaw ps := rfl
  have hs : (mkUrl path ps).data.takeWhile Char.isAlpha = [] := by
    rw [hmk, hdata, List.cons_append, List.takeWhile_cons]
    simp
  have hpq : pathQuery (mkUrl path ps).data = (some path, ps) := by
    rw [hmk, pathQuery_split _ _ (pathOk_no_q path hpath)]
    rw [parseQuery_fmtRaw ps hps hne]
    have : path.data.isEmpty = false := by
      rw [hdata]
      rfl
    simp [this]
  rw [parseUrl]
  simp only [hs, List.length_nil, List.drop_zero]
  split
  · rename_i rest heq
    rw [hmk, hdata, List.cons_append] at heq
    simp at heq
  · rw [hpq]

theorem parseUrl_absolute (s : String) (pr H path : String)
    (ps : List (String × String))
    (hsdata : s.data = pr.data ++ ':' :: '/' :: '/' :: (H.data ++ (mkUrl path ps).data))
    (hpr : pr = "http" ∨ pr = "https")
    (hH : hostOk H = true)
    (hpath : pathOk path = true)
    (hps : ∀ p ∈ ps, rawOk p = true) (hne : ps ≠ []) :
    parseUrl s = ⟨some pr, some H, some path, ps⟩ := by
  have hHspec : ∀ c ∈ H.data, ¬(c = '/' ∨ c = '?' ∨ c = '#') := by
    rw [hostOk, Bool.and_eq_true] at hH
    intro c hc hor
    have hcc := List.all_eq_true.mp hH.2 _ hc
    simp only [Bool.or_eq_true, decide_eq_true_eq] at hcc
    rcases hor with h | h | h <;> rw [h] at hcc <;>
      rcases hcc with (hx | hx) | hx | hx <;> revert hx <;> decide
  obtain ⟨hhead, _⟩ := pathOk_spec path hpath
  obtain ⟨t, hdata⟩ : ∃ t, path.data = '/' :: t := by
    cases hd : path.data with
    | nil => rw [hd] at hhead; exact absurd hhead (by simp)
    | cons c cs =>
      rw [hd] at hhead
      simp only [List.head?_cons, Option.some_inj] at hhead
      exact ⟨cs, by rw [hhead]⟩
  have hprAlpha : ∀ c ∈ pr.data, Char.isAlpha c = true := by
    rcases hpr with h | h <;> subst h <;> decide
  have hprNe : pr.data ≠ [] := by
    rcases hpr with h | h <;> subst h <;> decide
  have hs : (pr.data ++ ':' :: '/' :: '/' :: (H.data ++ (mkUrl path ps).data)).takeWhile
      Char.isAlpha = pr.data :=
    takeWhile_append_not _ _ _ _ hprAlpha (by decide)
  have hhost : (H.data ++ (mkUrl path ps).data).takeWhile
      (fun c => ¬(c = '/' ∨ c = '?' ∨ c = '#')) = H.data := by
    have hmk : (mkUrl path ps).data = path.data ++ '?' :: fmtRaw ps := rfl
    rw [hmk, hdata, List.cons_append]
    exact takeWhile_append_not _ _ _ _
      (fun x hx => decide_eq_true (hHspec x hx)) (by decide)
  have hpq : pathQuery (mkUrl path ps).data = (some path, ps) := by
    have hmk : (mkUrl path ps).data = path.data ++ '?' :: fmtRaw ps := rfl
    rw [hmk, pathQuery_split _ _ (pathOk_no_q path hpath)]
    rw [parseQuery_fmtRaw ps hps hne]
    have : path.data.isEmpty = false := by
      rw [hdata]
      rfl
    simp [this]
  have hsne : pr.data.isEmpty = false := by
    rcases hpr with h | h <;> subst h <;> decide
  have hHne : H.data.isEmpty = false := by
    have hne2 : ¬H = "" := by
      intro h0
      rw [h0] at hH
      exact absurd hH (by decide)
    cases hd : H.data with
    | nil => exact absurd (strExt H "" (by simp [hd])) hne2
    | cons c cs => rfl
  rw [parseUrl, hsdata, hs, List.drop_left]
  simp only [hsne, Bool.false_eq_true, if_false]
  rw [hhost, List.drop_left, hpq]
  simp [hHne]

theorem urlFormat_slashed (pr H path : String) (q : List (String × String))
    (hpr : slashedProtocol pr = true) (hprne : ¬pr = "")
    (hpath : path.data.head? = some '/') :
    urlFormat pr H path q =
      pr ++ ":" ++ ("//" ++ H) ++ path ++
        (if q.isEmpty then "" else "?" ++ (⟨formatQuery q⟩ : String)) := by
  have hsw : ¬¬(path.data.head? = some '/') := fun h => h hpath
  simp only [urlFormat, hpr, if_neg hprne, if_true, hsw]
  simp [hpath]

/-! ## Service-URL lemmas and claim C1 -/

theorem strData_append (a b : String) : (a ++ b).data = a.data ++ b.data := rfl

theorem alnumOk_spec (p : String × String) (h : alnumOk p = true) :
    (∀ c ∈ p.1.data, c.isAlphanum = true) ∧ ∀ c ∈ p.2.data, c.isAlphanum = true := by
  rw [alnumOk, Bool.and_eq_true] at h
  exact ⟨fun c hc => by simpa using List.all_eq_true.mp h.1 _ hc,
    fun c hc => by simpa using List.all_eq_true.mp h.2 _ hc⟩

theorem alnumOk_rawOk (p : String × String) (h : alnumOk p = true) :
    rawOk p = true := by
  obtain ⟨h1, h2⟩ := alnumOk_spec p h
  rw [rawOk, Bool.and_eq_true]
  constructor
  · exact List.all_eq_true.mpr (fun c hc => queryChar_of_alphanum c (h1 c hc))
  · exact List.all_eq_true.mpr (fun c hc => queryChar_of_alphanum c (h2 c hc))

theorem alnumOk_uriOk (p : String × String) (h : alnumOk p = true) :
    uriOk p = true := by
  obtain ⟨h1, h2⟩ := alnumOk_spec p h
  rw [uriOk, Bool.and_eq_true]
  constructor
  · exact List.all_eq_true.mpr (fun c hc => uriUnreserved_of_alphanum c (h1 c hc))
  · exact List.all_eq_true.mpr (fun c hc => uriUnreserved_of_alphanum c (h2 c hc))

theorem lookup_none_of (k : String) (ps : List (String × String))
    (h : ∀ p ∈ ps, ¬p.1 = k) : List.lookup k ps = none := by
  induction ps with
  | nil => rfl
  | cons p t ih =>
    rw [List.lookup]
    have hne : (k == p.1) = false := by
      rw [beq_eq_false_iff_ne]
      exact fun he => h p (List.mem_cons_self _ _) he.symm
    rw [hne]
    simp only [Bool.false_eq_true, if_false]
    exact ih (fun x hx => h x (List.mem_cons_of_mem _ hx))

theorem lookup_skip (k : String) (pre rest : List (String × String))
    (h : ∀ p ∈ pre, ¬p.1 = k) :
    List.lookup k (pre ++ rest) = List.lookup k rest := by
  induction pre with
  | nil => rfl
  | cons p t ih =>
    rw [List.cons_append, List.lookup]
    have hne : (k == p.1) = false := by
      rw [beq_eq_false_iff_ne]
      exact fun he => h p (List.mem_cons_self _ _) he.symm
    rw [hne]
    simp only [Bool.false_eq_true, if_false]
    exact ih (fun x hx => h x (List.mem_cons_of_mem _ hx))

theorem filter_ne_ticket (ps : List (String × String))
    (h : ∀ p ∈ ps, ¬p.1 = "ticket") :
    ps.filter (fun kv => ¬(kv.1 = "ticket")) = ps := by
  induction ps with
  | nil => rfl
  | cons p t ih =>
    rw [List.filter_cons]
    have : (decide ¬(p.1 = "ticket")) = true := decide_eq_true (h p (List.mem_cons_self _ _))
    simp only [this, if_true]
    rw [ih (fun x hx => h x (List.mem_cons_of_mem _ hx))]

theorem buildService_eq (req : Request) (path : String) (ps : List (String × String))
    (hurl : req.reqUrl = mkUrl path ps)
    (hpath : pathOk path = true)
    (hps : ∀ p ∈ ps, rawOk p = true) (hne : ps ≠ [])
    (hticket : ∀ p ∈ ps, ¬p.1 = "ticket")
    (hxpru : req.xProxiedRequestUri = none) :
    buildService req =
      urlFormat ((jsOr req.xForwardedProto (jsOr req.xProxiedProtocol req.protocol)).getD "http")
        ((jsOr req.xForwardedHost (jsOr req.host none)).getD "")
        path ps := by
  rw [buildService, hurl, parseUrl_mkUrl path ps hpath hps hne]
  simp only [hxpru, jsOr, Option.getD_some]
  rw [filter_ne_ticket ps hticket]

theorem fmtRaw_ascii (ps : List (String × String))
    (h : ∀ p ∈ ps, alnumOk p = true) :
    ∀ c ∈ fmtRaw ps, c.toNat < 128 := by
  induction ps with
  | nil => simp [fmtRaw]
  | cons p t ih =>
    have hpair : ∀ c ∈ rawPair p, c.toNat < 128 := by
      intro c hc
      obtain ⟨h1, h2⟩ := alnumOk_spec p (h p (List.mem_cons_self _ _))
      rw [rawPair] at hc
      rcases List.mem_append.mp hc with hm | hm
      · exact alphanum_toNat_lt c (h1 c hm)
      · rcases List.mem_cons.mp hm with hm | hm
        · rw [hm]; decide
        · exact alphanum_toNat_lt c (h2 c hm)
    cases t with
    | nil => exact hpair
    | cons q r =>
      rw [fmtRaw_cons _ _ (List.cons_ne_nil _ _)]
      intro c hc
      rcases List.mem_append.mp hc with hm | hm
      · exact hpair c hm
      · rcases List.mem_cons.mp hm with hm | hm
        · rw [hm]; decide
        · exact ih (fun x hx => h x (List.mem_cons_of_mem _ hx)) c hm

theorem hostOk_ascii (H : String) (h : hostOk H = true) :
    ∀ c ∈ H.data, c.toNat < 128 := by
  rw [hostOk, Bool.and_eq_true] at h
  intro c hc
  have hcc := List.all_eq_true.mp h.2 _ hc
  simp only [Bool.or_eq_true, decide_eq_true_eq] at hcc
  rcases hcc with ((hx | hx) | hx) | hx
  · exact alphanum_toNat_lt c hx
  · rw [hx]; decide
  · rw [hx]; decide
  · rw [hx]; decide

theorem pathOk_ascii (path : String) (h : pathOk path = true) :
    ∀ c ∈ path.data, c.toNat < 128 := by
  intro c hc
  rcases (pathOk_spec path h).2 c hc with hx | hx
  · rw [hx]; decide
  · exact alphanum_toNat_lt c hx

/-- The canonical absolute service URL: scheme, host, path, query. -/
theorem service_assembly (pr H path : String) (ps : List (String × String)) :
    pr ++ ":" ++ ("//" ++ H) ++ path ++ ("?" ++ (⟨fmtRaw ps⟩ : String)) =
      pr ++ "://" ++ H ++ path ++ "?" ++ (⟨fmtRaw ps⟩ : String) := by
  refine strExt _ _ ?_
  simp only [strData_append]
  simp

theorem service_ascii (pr H path : String) (ps : List (String × String))
    (hpr : pr = "http" ∨ pr = "https")
    (hH : hostOk H = true) (hpath : pathOk path = true)
    (hps : ∀ p ∈ ps, alnumOk p = true) :
    ∀ c ∈ (pr ++ "://" ++ H ++ path ++ "?" ++ (⟨fmtRaw ps⟩ : String)).data,
      c.toNat < 128 := by
  intro c hc
  simp only [strData_append] at hc
  simp only [List.mem_append] at hc
  rcases hc with ((((hm | hm) | hm) | hm) | hm) | hm
  · have : ∀ x ∈ pr.data, x.toNat < 128 := by
      rcases hpr with h | h <;> subst h <;> decide
    exact this c hm
  · rcases List.mem_cons.mp hm with hx | hx
    · rw [hx]; decide
    · rcases List.mem_cons.mp hx with hy | hy
      · rw [hy]; decide
      · rcases List.mem_cons.mp hy with hz | hz
        · rw [hz]; decide
        · simp at hz
  · exact hostOk_ascii H hH c hm
  · exact pathOk_ascii path hpath c hm
  · rcases List.mem_cons.mp hm with hx | hx
    · rw [hx]; decide
    · simp at hx
  · exact fmtRaw_ascii ps hps c hm

theorem urlFormat_abs (pr H path : String) (ps : List (String × String))
    (hprv : pr = "http" ∨ pr = "https")
    (hpath : pathOk path = true) (hne : ps ≠ [])
    (hps : ∀ p ∈ ps, alnumOk p = true) :
    urlFormat pr H path ps =
      pr ++ "://" ++ H ++ path ++ "?" ++ (⟨fmtRaw ps⟩ : String) := by
  have hsl : slashedProtocol pr = true := by
    rcases hprv with h | h <;> subst h <;> decide
  have hprne : ¬pr = "" := by
    rcases hprv with h | h <;> subst h <;> decide
  rw [urlFormat_slashed pr H path ps hsl hprne (pathOk_spec path hpath).1]
  have hpse : ps.isEmpty = false := by
    cases ps with
    | nil => exact absurd rfl hne
    | cons a b => rfl
  rw [hpse]
  simp only [Bool.false_eq_true, if_false]
  rw [formatQuery_eq_fmtRaw ps (fun p hp => alnumOk_uriOk p (hps p hp))]
  exact service_assembly pr H path ps

theorem buildService_closed (req : Request) (path pr H : String)
    (ps : List (String × String))
    (hurl : req.reqUrl = mkUrl path ps)
    (hpath : pathOk path = true)
    (hps : ∀ p ∈ ps, alnumOk p = true) (hne : ps ≠ [])
    (hticket : ∀ p ∈ ps, ¬p.1 = "ticket")
    (hxpru : req.xProxiedRequestUri = none)
    (hpr : (jsOr req.xForwardedProto (jsOr req.xProxiedProtocol req.protocol)).getD "http" = pr)
    (hprv : pr = "http" ∨ pr = "https")
    (hH : (jsOr req.xForwardedHost (jsOr req.host none)).getD "" = H) :
    buildService req = pr ++ "://" ++ H ++ path ++ "?" ++ (⟨fmtRaw ps⟩ : String) := by
  have hps' : ∀ p ∈ ps, rawOk p = true := fun p hp => alnumOk_rawOk p (hps p hp)
  rw [buildService_eq req path ps hurl hpath hps' hne hticket hxpru, hpr, hH]
  exact urlFormat_abs pr H path ps hprv hpath hne hps

theorem decode_encode_id (s : String) (h : ∀ c ∈ s.data, c.toNat < 128) :
    decodeURIComponent (encodeURIComponent s) = s := by
  refine strExt _ _ ?_
  rw [decodeURIComponent, encodeURIComponent]
  exact percentDecode_percentEncode s.data h

/-- C1: on a request whose query has no `ticket` parameter, `authenticate`
issues exactly one HTTP 307 redirect to
`<casBaseURL>/login?service=<urlencoded service>`, where the service
URL-decodes back to the request's own URL assembled with the header
precedence for scheme and host (the ticket-removal is a no-op here); no
`cas.validate` call — and hence no verify-callback invocation, which only
ever happens inside the validation continuation — occurs. -/
theorem c1_no_ticket_redirect (strat : Strategy) (req : Request)
    (path pr H : String) (ps : List (String × String))
    (hinit : req.passportInitialized = true)
    (hurl : req.reqUrl = mkUrl path ps)
    (hpath : pathOk path = true)
    (hps : ∀ p ∈ ps, alnumOk p = true) (hne : ps ≠ [])
    (hticket : ∀ p ∈ ps, ¬p.1 = "ticket")
    (hxpru : req.xProxiedRequestUri = none)
    (hpr : (jsOr req.xForwardedProto (jsOr req.xProxiedProtocol req.protocol)).getD "http" = pr)
    (hprv : pr = "http" ∨ pr = "https")
    (hH : (jsOr req.xForwardedHost (jsOr req.host none)).getD "" = H)
    (hHok : hostOk H = true) :
    authenticate strat req =
      .redirect (strat.casBaseUrl ++ "/login?service=" ++
        encodeURIComponent (pr ++ "://" ++ H ++ path ++ "?" ++ (⟨fmtRaw ps⟩ : String))) 307 ∧
    buildService req = pr ++ "://" ++ H ++ path ++ "?" ++ (⟨fmtRaw ps⟩ : String) ∧
    decodeURIComponent (encodeURIComponent
        (pr ++ "://" ++ H ++ path ++ "?" ++ (⟨fmtRaw ps⟩ : String))) =
      pr ++ "://" ++ H ++ path ++ "?" ++ (⟨fmtRaw ps⟩ : String) ∧
    ∀ t s, ¬authenticate strat req = AuthStep.validate t s := by
  have hps' : ∀ p ∈ ps, rawOk p = true := fun p hp => alnumOk_rawOk p (hps p hp)
  have hsv : buildService req =
      pr ++ "://" ++ H ++ path ++ "?" ++ (⟨fmtRaw ps⟩ : String) :=
    buildService_closed req path pr H ps hurl hpath hps hne hticket hxpru hpr hprv hH
  have hred : authenticate strat req =
      .redirect (strat.casBaseUrl ++ "/login?service=" ++
        encodeURIComponent (pr ++ "://" ++ H ++ path ++ "?" ++ (⟨fmtRaw ps⟩ : String))) 307 := by
    rw [authenticate, hinit]
    simp only [Bool.true_eq_false, if_false]
    rw [hurl, parseUrl_mkUrl path ps hpath hps' hne]
    simp only
    rw [lookup_none_of "ticket" ps (fun p hp => hticket p hp)]
    rw [hsv]
  refine ⟨hred, hsv, ?_, ?_⟩
  · exact decode_encode_id _ (service_ascii pr H path ps hprv hHok hpath hps)
  · intro t s hv
    rw [hred] at hv
    exact AuthStep.noConfusion hv

/-- Witness for C1: a concrete ticketless request redirects to the CAS
login with the re-assembled service URL. -/
theorem c1_no_ticket_redirect_witness :
    authenticate { casBaseUrl := "https://cas.example.org/cas" }
      { reqUrl := "/app/page?a=1", host := some "app.example.org",
        protocol := some "http" } =
      .redirect ("https://cas.example.org/cas" ++ "/login?service=" ++
        encodeURIComponent ("http" ++ "://" ++ "app.example.org" ++ "/app/page" ++ "?" ++
          (⟨fmtRaw [("a", "1")]⟩ : String))) 307 :=
  (c1_no_ticket_redirect { casBaseUrl := "https://cas.example.org/cas" }
    { reqUrl := "/app/page?a=1", host := some "app.example.org", protocol := some "http" }
    "/app/page" "http" "app.example.org" [("a", "1")]
    rfl rfl (by decide) (by decide) (by simp) (by decide) rfl rfl
    (Or.inl rfl) rfl (by decide)).1

/-! ## Claim C8 — service-URL idempotence -/

theorem jsOr_assoc (a b c : Option String) :
    jsOr (jsOr a b) c = jsOr a (jsOr b c) := by
  cases a with
  | none => rfl
  | some s =>
    by_cases h : s = ""
    · simp [jsOr, h]
    · simp [jsOr, h]

theorem hostOk_ne_empty (H : String) (h : hostOk H = true) : ¬H = "" := by
  intro h0
  rw [h0] at h
  exact absurd h (by decide)

theorem buildService_eq_abs (req : Request) (path pr H : String)
    (ps : List (String × String))
    (hsdata : req.reqUrl.data =
      pr.data ++ ':' :: '/' :: '/' :: (H.data ++ (mkUrl path ps).data))
    (hprv : pr = "http" ∨ pr = "https")
    (hHok : hostOk H = true)
    (hpath : pathOk path = true)
    (hps : ∀ p ∈ ps, rawOk p = true) (hne : ps ≠ [])
    (hticket : ∀ p ∈ ps, ¬p.1 = "ticket")
    (hxpru : req.xProxiedRequestUri = none) :
    buildService req =
      urlFormat ((jsOr req.xForwardedProto (jsOr req.xProxiedProtocol req.protocol)).getD "http")
        ((jsOr req.xForwardedHost (jsOr req.host (some H))).getD "")
        path ps := by
  rw [buildService,
    parseUrl_absolute req.reqUrl pr H path ps hsdata hprv hHok hpath hps hne]
  simp only [hxpru, jsOr, Option.getD_some]
  rw [filter_ne_ticket ps hticket]

/-- C8: the service-URL construction is a pure function of the request and
is idempotent — re-running it on a request whose URL is the (already
ticket-free) service URL it produced, with the same headers, yields the
same URL again, so the computation is stable across the redirect
round-trip. -/
theorem c8_service_idempotent (req : Request) (path pr H : String)
    (ps : List (String × String))
    (hurl : req.reqUrl = mkUrl path ps)
    (hpath : pathOk path = true)
    (hps : ∀ p ∈ ps, alnumOk p = true) (hne : ps ≠ [])
    (hticket : ∀ p ∈ ps, ¬p.1 = "ticket")
    (hxpru : req.xProxiedRequestUri = none)
    (hpr : (jsOr req.xForwardedProto (jsOr req.xProxiedProtocol req.protocol)).getD "http" = pr)
    (hprv : pr = "http" ∨ pr = "https")
    (hHor : jsOr req.xForwardedHost req.host = some H)
    (hHok : hostOk H = true) :
    buildService { req with reqUrl := buildService req } = buildService req := by
  have hps' : ∀ p ∈ ps, rawOk p = true := fun p hp => alnumOk_rawOk p (hps p hp)
  have hHne : ¬H = "" := hostOk_ne_empty H hHok
  have hH1 : (jsOr req.xForwardedHost (jsOr req.host none)).getD "" = H := by
    rw [← jsOr_assoc, hHor]
    simp [jsOr, hHne]
  have hs : buildService req =
      pr ++ "://" ++ H ++ path ++ "?" ++ (⟨fmtRaw ps⟩ : String) :=
    buildService_closed req path pr H ps hurl hpath hps hne hticket hxpru hpr hprv hH1
  have hsdata : ({ req with reqUrl := buildService req } : Request).reqUrl.data =
      pr.data ++ ':' :: '/' :: '/' :: (H.data ++ (mkUrl path ps).data) := by
    show (buildService req).data = _
    rw [hs]
    simp only [strData_append]
    have hmk : (mkUrl path ps).data = path.data ++ '?' :: fmtRaw ps := rfl
    rw [hmk]
    simp
  rw [buildService_eq_abs { req with reqUrl := buildService req } path pr H ps
    hsdata hprv hHok hpath hps' hne hticket hxpru]
  have hf1 : ({ req with reqUrl := buildService req } : Request).xForwardedProto =
      req.xForwardedProto := rfl
  have hf2 : ({ req with reqUrl := buildService req } : Request).xProxiedProtocol =
      req.xProxiedProtocol := rfl
  have hf3 : ({ req with reqUrl := buildService req } : Request).protocol =
      req.protocol := rfl
  have hf4 : ({ req with reqUrl := buildService req } : Request).xForwardedHost =
      req.xForwardedHost := rfl
  have hf5 : ({ req with reqUrl := buildService req } : Request).host =
      req.host := rfl
  rw [hf1, hf2, hf3, hf4, hf5, hpr]
  have hH2 : (jsOr req.xForwardedHost (jsOr req.host (some H))).getD "" = H := by
    rw [← jsOr_assoc, hHor]
    simp [jsOr, hHne]
  rw [hH2, urlFormat_abs pr H path ps hprv hpath hne hps, hs]

/-- Witness for C8: one round-trip on a concrete request reproduces the
same service URL. -/
theorem c8_service_idempotent_witness :
    buildService
        { reqUrl :=
            buildService
              { reqUrl := "/app?a=1", host := some "h.example.org",
                protocol := some "http" },
          host := some "h.example.org", protocol := some "http" } =
      buildService
        { reqUrl := "/app?a=1", host := some "h.example.org",
          protocol := some "http" } :=
  c8_service_idempotent
    { reqUrl := "/app?a=1", host := some "h.example.org", protocol := some "http" }
    "/app" "http" "h.example.org" [("a", "1")]
    rfl (by decide) (by decide) (by simp) (by decide) rfl rfl
    (Or.inl rfl) rfl (by decide)

/-! ## Retry-rewrite scanner lemmas (claim C2) -/

theorem isPrefixOf_append_self (a b : List Char) : a.isPrefixOf (a ++ b) = true := by
  induction a with
  | nil => simp [List.isPrefixOf]
  | cons c t ih =>
    show ((c == c) && t.isPrefixOf (t ++ b)) = true
    simp [ih]

theorem safeName_spec (s : String) (h : safeName s = true) :
    s.data ≠ [] ∧ ¬s.data.head? = some 't' ∧ ∀ c ∈ s.data, c.isAlphanum = true := by
  rw [safeName, Bool.and_eq_true, Bool.and_eq_true] at h
  refine ⟨?_, ?_, ?_⟩
  · intro h0
    rw [h0] at h
    exact absurd h.1.1 (by decide)
  · have := h.1.2
    simp only [Bool.not_eq_eq_eq_not, Bool.not_true, decide_eq_false_iff_not] at this
    exact this
  · exact fun c hc => by simpa using List.all_eq_true.mp h.2 _ hc

theorem ticketOk_spec (s : String) (h : ticketOk s = true) :
    s.data ≠ [] ∧ ∀ c ∈ s.data, c.isAlphanum = true ∨ c = '.' ∨ c = '-' := by
  rw [ticketOk, Bool.and_eq_true] at h
  constructor
  · intro h0
    rw [h0] at h
    exact absurd h.1 (by decide)
  · intro c hc
    have hx := List.all_eq_true.mp h.2 _ hc
    simp only [Bool.or_eq_true, decide_eq_true_eq] at hx
    tauto

theorem digitsOk_spec (s : String) (h : digitsOk s = true) :
    s.data ≠ [] ∧ ∀ c ∈ s.data, c.isDigit = true := by
  rw [digitsOk, Bool.and_eq_true] at h
  constructor
  · intro h0
    rw [h0] at h
    exact absurd h.1 (by decide)
  · exact fun c hc => by simpa using List.all_eq_true.mp h.2 _ hc

theorem matchRetryAt_none (c : Char) (t : List Char) (h : ¬c = '_') :
    matchRetryAt (c :: t) = none := by
  rw [matchRetryAt]
  have hpre : retryPat.isPrefixOf (c :: t) = false := by
    show (('_' == c) && _) = false
    have : ('_' == c) = false := by
      rw [beq_eq_false_iff_ne]
      exact fun he => h he.symm
    rw [this, Bool.false_and]
  rw [hpre]
  simp

theorem replaceRetry_cons (c : Char) (t : List Char) :
    replaceRetry (c :: t) =
      match matchRetryAt (c :: t) with
      | some rem => rem
      | none => c :: replaceRetry t := rfl

theorem replaceRetry_skip (a b : List Char) (h : ∀ c ∈ a, ¬c = '_') :
    replaceRetry (a ++ b) = a ++ replaceRetry b := by
  induction a with
  | nil => rfl
  | cons c t ih =>
    rw [List.cons_append, replaceRetry_cons,
      matchRetryAt_none c _ (h c (List.mem_cons_self _ _))]
    simp only
    rw [ih (fun x hx => h x (List.mem_cons_of_mem _ hx)), List.cons_append]

theorem replaceRetry_id (l : List Char) (h : ∀ c ∈ l, ¬c = '_') :
    replaceRetry l = l := by
  have h2 := replaceRetry_skip l [] h
  rw [List.append_nil] at h2
  rw [h2]
  simp [replaceRetry]

theorem matchRetryAt_found (D suffix : List Char) (hne : D ≠ [])
    (hd : ∀ c ∈ D, c.isDigit = true) :
    matchRetryAt (retryPat ++ (D ++ '&' :: suffix)) = some suffix := by
  have hDe : D.isEmpty = false := by
    cases D with
    | nil => exact absurd rfl hne
    | cons a b => rfl
  rw [matchRetryAt]
  rw [isPrefixOf_append_self]
  simp only [if_true, List.drop_left,
    takeWhile_append_not Char.isDigit D '&' suffix hd (by decide), hDe,
    Bool.false_eq_true, if_false]

theorem replaceRetry_found (D suffix : List Char) (hne : D ≠ [])
    (hd : ∀ c ∈ D, c.isDigit = true) :
    replaceRetry (retryPat ++ (D ++ '&' :: suffix)) = suffix := by
  have hr : retryPat ++ (D ++ '&' :: suffix) =
      '_' :: ("cas_retry=".data ++ (D ++ '&' :: suffix)) := rfl
  rw [hr, replaceRetry_cons, ← hr, matchRetryAt_found D suffix hne hd]

theorem ticketPat_not_prefix_of_name (k : String) (r : List Char)
    (hk : safeName k = true) : ticketPat.isPrefixOf (k.data ++ r) = false := by
  obtain ⟨hne, hhd, _⟩ := safeName_spec k hk
  cases hd : k.data with
  | nil => exact absurd hd hne
  | cons c0 t0 =>
    have hc0 : ¬c0 = 't' := by
      rw [hd] at hhd
      simpa using hhd
    rw [List.cons_append]
    show (('t' == c0) && _) = false
    have : ('t' == c0) = false := by
      rw [beq_eq_false_iff_ne]
      exact fun he => hc0 he.symm
    rw [this, Bool.false_and]

theorem ticketPat_not_prefix_amp (t : List Char) :
    ticketPat.isPrefixOf ('&' :: t) = false := by
  show (('t' == '&') && _) = false
  rw [show ('t' == '&') = false from by decide, Bool.false_and]

theorem matchTicketAt_cons (c : Char) (t : List Char) :
    matchTicketAt (c :: t) =
      if (c = '?' ∨ c = '&') ∧ ticketPat.isPrefixOf t then
        let rest := t.drop ticketPat.length
        let ws := rest.takeWhile isWordDotDash
        if ws.isEmpty then none else some (c, rest.drop ws.length)
      else none := rfl

theorem matchTicketAt_none_head (c : Char) (t : List Char)
    (h : ¬(c = '?' ∨ c = '&')) : matchTicketAt (c :: t) = none := by
  rw [matchTicketAt_cons]
  simp [h]

theorem matchTicketAt_none_pre (c : Char) (t : List Char)
    (h : ticketPat.isPrefixOf t = false) : matchTicketAt (c :: t) = none := by
  rw [matchTicketAt_cons]
  simp [h]

theorem replaceTicket_cons (tok : List Char) (c : Char) (t : List Char) :
    replaceTicket tok (c :: t) =
      match matchTicketAt (c :: t) with
      | some (d, rem) => d :: (retryPat ++ tok ++ rem)
      | none => c :: replaceTicket tok t := rfl

theorem replaceTicket_skip_plain (tok a b : List Char)
    (h : ∀ c ∈ a, ¬(c = '?' ∨ c = '&')) :
    replaceTicket tok (a ++ b) = a ++ replaceTicket tok b := by
  induction a with
  | nil => rfl
  | cons c t ih =>
    rw [List.cons_append, replaceTicket_cons,
      matchTicketAt_none_head c _ (h c (List.mem_cons_self _ _))]
    simp only
    rw [ih (fun x hx => h x (List.mem_cons_of_mem _ hx)), List.cons_append]

theorem fmtRaw_single (y : String × String) (post : List (String × String)) :
    fmtRaw (y :: post) =
      rawPair y ++ (if post.isEmpty then [] else '&' :: fmtRaw post) := by
  cases post with
  | nil => simp [fmtRaw]
  | cons q r =>
    rw [fmtRaw_cons _ _ (List.cons_ne_nil _ _)]
    rfl

theorem fmtRaw_append (xs ys : List (String × String)) (hys : ys ≠ []) :
    fmtRaw (xs ++ ys) =
      fmtRaw xs ++ (if xs.isEmpty then [] else ['&']) ++ fmtRaw ys := by
  induction xs with
  | nil => simp [fmtRaw]
  | cons x t ih =>
    rw [List.cons_append, fmtRaw_cons _ _
      (by intro h0; rcases List.append_eq_nil.mp h0 with ⟨h1, h2⟩; exact hys h2)]
    cases t with
    | nil =>
      rw [fmtRaw_single x []]
      simp [fmtRaw_single]
    | cons q r =>
      rw [ih, fmtRaw_cons _ _ (List.cons_ne_nil _ _)]
      simp

theorem replaceTicket_skip_parts (tok : List Char) (parts : List (String × String))
    (tail : List Char) (sep : Char) (hsep : sep = '?' ∨ sep = '&')
    (hsafe : ∀ p ∈ parts, safeName p.1 = true ∧ safeVal p.2 = true) :
    replaceTicket tok (sep :: (fmtRaw parts ++ '&' :: tail)) =
      sep :: (fmtRaw parts ++ replaceTicket tok ('&' :: tail)) := by
  induction parts generalizing sep with
  | nil =>
    rw [fmtRaw, List.nil_append, List.nil_append, replaceTicket_cons,
      matchTicketAt_none_pre sep _ (ticketPat_not_prefix_amp tail)]
  | cons p t ih =>
    have hp := hsafe p (List.mem_cons_self _ _)
    have hplain : ∀ c ∈ rawPair p, ¬(c = '?' ∨ c = '&') := by
      intro c hc hor
      obtain ⟨_, _, hal⟩ := safeName_spec p.1 hp.1
      have hval : ∀ x ∈ p.2.data, x.isAlphanum = true := by
        intro x hx
        simpa using List.all_eq_true.mp hp.2 _ hx
      rw [rawPair] at hc
      have hca : c.isAlphanum = true ∨ c = '=' := by
        rcases List.mem_append.mp hc with hm | hm
        · exact Or.inl (hal c hm)
        · rcases List.mem_cons.mp hm with hm | hm
          · exact Or.inr hm
          · exact Or.inl (hval c hm)
      rcases hor with h0 | h0 <;> subst h0 <;> rcases hca with h1 | h1
      · exact absurd h1 (by decide)
      · exact absurd h1 (by decide)
      · exact absurd h1 (by decide)
      · exact absurd h1 (by decide)
    cases t with
    | nil =>
      rw [fmtRaw]
      have hnm : matchTicketAt (sep :: (rawPair p ++ '&' :: tail)) = none := by
        refine matchTicketAt_none_pre sep _ ?_
        rw [rawPair, List.append_assoc]
        exact ticketPat_not_prefix_of_name p.1 _ hp.1
      rw [replaceTicket_cons, hnm]
      simp only
      rw [replaceTicket_skip_plain tok _ _ hplain]
    | cons q r =>
      rw [fmtRaw_cons _ _ (List.cons_ne_nil _ _)]
      rw [List.append_assoc, List.cons_append]
      rw [replaceTicket_cons]
      have hnm2 : matchTicketAt
          (sep :: (rawPair p ++ '&' :: (fmtRaw (q :: r) ++ '&' :: tail))) = none := by
        refine matchTicketAt_none_pre sep _ ?_
        rw [rawPair, List.append_assoc]
        exact ticketPat_not_prefix_of_name p.1 _ hp.1
      rw [hnm2]
      simp only
      rw [replaceTicket_skip_plain tok _ _ hplain]
      rw [ih '&' (Or.inr rfl) (fun x hx => hsafe x (List.mem_cons_of_mem _ hx))]
      simp

theorem matchTicketAt_found (d : Char) (hd : d = '?' ∨ d = '&') (T : String)
    (after : List Char) (hT : ticketOk T = true)
    (hafter : after = [] ∨ ∃ t', after = '&' :: t') :
    matchTicketAt (d :: (rawPair ("ticket", T) ++ after)) = some (d, after) := by
  obtain ⟨hTne, hTc⟩ := ticketOk_spec T hT
  have hTe : T.data.isEmpty = false := by
    cases hc : T.data with
    | nil => exact absurd hc hTne
    | cons a b => rfl
  have hr : rawPair ("ticket", T) ++ after = ticketPat ++ (T.data ++ after) := by
    show ("ticket".data ++ '=' :: T.data) ++ after = _
    simp [ticketPat]
  have hTw : ∀ c ∈ T.data, isWordDotDash c = true := by
    intro c hc
    rcases hTc c hc with h | h | h
    · simp [isWordDotDash, h]
    · simp [isWordDotDash, h]
    · simp [isWordDotDash, h]
  have htw : (T.data ++ after).takeWhile isWordDotDash = T.data := by
    rcases hafter with h | ⟨t', h⟩
    · rw [h, List.append_nil]
      exact takeWhile_all _ _ hTw
    · rw [h]
      exact takeWhile_append_not _ _ _ _ hTw (by decide)
  have hwe : (T.data ++ after).takeWhile isWordDotDash ≠ [] := by
    rw [htw]
    exact hTne
  rw [hr, matchTicketAt_cons]
  have hcond : (d = '?' ∨ d = '&') ∧ ticketPat.isPrefixOf (ticketPat ++ (T.data ++ after)) :=
    ⟨hd, by rw [isPrefixOf_append_self]⟩
  rw [if_pos hcond]
  simp only [List.drop_left, htw, hTe, Bool.false_eq_true, if_false]

theorem retryPat_append_tok (tok : List Char) :
    retryPat ++ tok = rawPair ("_cas_retry", (⟨tok⟩ : String)) := rfl

theorem pathOk_not_delim (P : String) (hP : pathOk P = true) :
    ∀ c ∈ P.data, ¬(c = '?' ∨ c = '&') := by
  intro c hc hor
  rcases (pathOk_spec P hP).2 c hc with h | h
  · rcases hor with h0 | h0 <;> rw [h0] at h <;> exact absurd h (by decide)
  · rcases hor with h0 | h0 <;> rw [h0] at h <;> exact absurd h (by decide)

/-- The effect of the second rewrite on a full raw URL: the `ticket`
parameter becomes `_cas_retry=<token>` in place, everything else kept. -/
theorem replaceTicket_url (tok : List Char) (P : String)
    (front post : List (String × String)) (T : String)
    (hP : pathOk P = true)
    (hfront : ∀ p ∈ front, safeName p.1 = true ∧ safeVal p.2 = true)
    (hT : ticketOk T = true) :
    replaceTicket tok (P.data ++ '?' :: fmtRaw (front ++ ("ticket", T) :: post)) =
      P.data ++ '?' :: fmtRaw (front ++ ("_cas_retry", (⟨tok⟩ : String)) :: post) := by
  have hafter : (if post.isEmpty then ([] : List Char) else '&' :: fmtRaw post) = [] ∨
      ∃ t', (if post.isEmpty then ([] : List Char) else '&' :: fmtRaw post) = '&' :: t' := by
    cases post with
    | nil => exact Or.inl rfl
    | cons a b => exact Or.inr ⟨fmtRaw (a :: b), rfl⟩
  have hskipP := replaceTicket_skip_plain tok P.data
  cases hfr : front with
  | nil =>
    simp only [List.nil_append]
    rw [fmtRaw_single, fmtRaw_single]
    rw [replaceTicket_skip_plain tok P.data _ (pathOk_not_delim P hP)]
    rw [replaceTicket_cons,
      matchTicketAt_found '?' (Or.inl rfl) T _ hT hafter]
    simp only
    rw [← List.cons_append, ← List.append_assoc, retryPat_append_tok]
    simp
  | cons f0 fr =>
    rw [fmtRaw_append (f0 :: fr) _ (List.cons_ne_nil _ _),
      fmtRaw_append (f0 :: fr) _ (List.cons_ne_nil _ _)]
    simp only [List.isEmpty_cons, Bool.false_eq_true, if_false]
    rw [fmtRaw_single ("ticket", T) post,
      fmtRaw_single ("_cas_retry", (⟨tok⟩ : String)) post]
    rw [replaceTicket_skip_plain tok P.data _ (pathOk_not_delim P hP)]
    rw [show fmtRaw (f0 :: fr) ++ ['&'] ++
        (rawPair ("ticket", T) ++ (if post.isEmpty then ([] : List Char) else '&' :: fmtRaw post)) =
        fmtRaw (f0 :: fr) ++ '&' ::
          (rawPair ("ticket", T) ++ (if post.isEmpty then ([] : List Char) else '&' :: fmtRaw post))
      from by simp]
    rw [replaceTicket_skip_parts tok (f0 :: fr) _ '?' (Or.inl rfl)
      (fun p hp => hfront p (hfr ▸ hp))]
    rw [replaceTicket_cons,
      matchTicketAt_found '&' (Or.inr rfl) T _ hT hafter]
    simp only
    rw [retryPat_append_tok]
    simp

theorem fmtRaw_chars (parts : List (String × String)) (c : Char)
    (hc : c ∈ fmtRaw parts) :
    c = '=' ∨ c = '&' ∨ ∃ p, p ∈ parts ∧ (c ∈ p.1.data ∨ c ∈ p.2.data) := by
  induction parts with
  | nil => simp [fmtRaw] at hc
  | cons p t ih =>
    have hpair : c ∈ rawPair p →
        c = '=' ∨ c = '&' ∨ ∃ q, q ∈ p :: t ∧ (c ∈ q.1.data ∨ c ∈ q.2.data) := by
      intro hm
      rw [rawPair] at hm
      rcases List.mem_append.mp hm with hm | hm
      · exact Or.inr (Or.inr ⟨p, List.mem_cons_self _ _, Or.inl hm⟩)
      · rcases List.mem_cons.mp hm with hm | hm
        · exact Or.inl hm
        · exact Or.inr (Or.inr ⟨p, List.mem_cons_self _ _, Or.inr hm⟩)
    cases t with
    | nil => exact hpair hc
    | cons q r =>
      rw [fmtRaw_cons _ _ (List.cons_ne_nil _ _)] at hc
      rcases List.mem_append.mp hc with hm | hm
      · exact hpair hm
      · rcases List.mem_cons.mp hm with hm | hm
        · exact Or.inr (Or.inl hm)
        · rcases ih hm with h | h | ⟨x, hx, hcx⟩
          · exact Or.inl h
          · exact Or.inr (Or.inl h)
          · exact Or.inr (Or.inr ⟨x, List.mem_cons_of_mem _ hx, hcx⟩)

theorem safe_no_underscore (parts : List (String × String))
    (h : ∀ p ∈ parts, safeName p.1 = true ∧ safeVal p.2 = true) :
    ∀ c ∈ fmtRaw parts, ¬c = '_' := by
  intro c hc
  rcases fmtRaw_chars parts c hc with h0 | h0 | ⟨p, hp, hcp⟩
  · rw [h0]; decide
  · rw [h0]; decide
  · have hsafe := h p hp
    rcases hcp with hm | hm
    · exact alphanum_ne c '_' ((safeName_spec p.1 hsafe.1).2.2 c hm) (by decide)
    · have : c.isAlphanum = true := by
        simpa using List.all_eq_true.mp hsafe.2 c hm
      exact alphanum_ne c '_' this (by decide)

theorem pathOk_no_underscore (P : String) (hP : pathOk P = true) :
    ∀ c ∈ P.data, ¬c = '_' := by
  intro c hc
  rcases (pathOk_spec P hP).2 c hc with h | h
  · rw [h]; decide
  · exact alphanum_ne c '_' h (by decide)

theorem rawPair_retry_eq (D : String) :
    rawPair ("_cas_retry", D) = retryPat ++ D.data := rfl

/-- The effect of the first rewrite on a full raw URL: the `_cas_retry`
parameter (and its separating `&`) is removed, everything else kept. -/
theorem replaceRetry_url (P : String) (pre rest2 : List (String × String))
    (D : String)
    (hP : pathOk P = true)
    (hpre : ∀ p ∈ pre, safeName p.1 = true ∧ safeVal p.2 = true)
    (hD : digitsOk D = true)
    (hrest : rest2 ≠ []) :
    replaceRetry (P.data ++ '?' :: fmtRaw (pre ++ ("_cas_retry", D) :: rest2)) =
      P.data ++ '?' :: fmtRaw (pre ++ rest2) := by
  obtain ⟨hDne, hDd⟩ := digitsOk_spec D hD
  have hsplit : P.data ++ '?' :: fmtRaw (pre ++ ("_cas_retry", D) :: rest2) =
      (P.data ++ '?' :: (fmtRaw pre ++ (if pre.isEmpty then [] else ['&']))) ++
        (retryPat ++ (D.data ++ '&' :: fmtRaw rest2)) := by
    rw [fmtRaw_append pre _ (List.cons_ne_nil _ _),
      fmtRaw_cons _ _ hrest, rawPair_retry_eq]
    simp
  have hhead : ∀ c ∈ P.data ++ '?' :: (fmtRaw pre ++ (if pre.isEmpty then [] else ['&'])),
      ¬c = '_' := by
    intro c hc
    rcases List.mem_append.mp hc with hm | hm
    · exact pathOk_no_underscore P hP c hm
    · rcases List.mem_cons.mp hm with hm | hm
      · rw [hm]; decide
      · rcases List.mem_append.mp hm with hm | hm
        · exact safe_no_underscore pre hpre c hm
        · cases hpe : pre.isEmpty with
          | true => rw [hpe] at hm; simp at hm
          | false =>
            rw [hpe] at hm
            rcases List.mem_cons.mp hm with hm | hm
            · rw [hm]; decide
            · simp at hm
  rw [hsplit, replaceRetry_skip _ _ hhead,
    replaceRetry_found D.data (fmtRaw rest2) (fun h0 => hDne (by
      cases hd : D.data with
      | nil => rfl
      | cons a b => rw [hd] at h0; exact absurd h0 (List.cons_ne_nil _ _))) hDd]
  rw [fmtRaw_append pre rest2 hrest]
  simp

theorem rawOk_of_safe (p : String × String)
    (h : safeName p.1 = true ∧ safeVal p.2 = true) : rawOk p = true := by
  rw [rawOk, Bool.and_eq_true]
  constructor
  · exact List.all_eq_true.mpr
      (fun c hc => queryChar_of_alphanum c ((safeName_spec p.1 h.1).2.2 c hc))
  · refine List.all_eq_true.mpr (fun c hc => ?_)
    have : c.isAlphanum = true := by
      simpa using List.all_eq_true.mp h.2 c hc
    exact queryChar_of_alphanum c this

theorem rawOk_ticket_pair (T : String) (hT : ticketOk T = true) :
    rawOk ("ticket", T) = true := by
  rw [rawOk, Bool.and_eq_true]
  refine ⟨by show ("ticket" : String).data.all queryChar = true; decide,
    List.all_eq_true.mpr (fun c hc => ?_)⟩
  rcases (ticketOk_spec T hT).2 c hc with h | h | h
  · exact queryChar_of_alphanum c h
  · rw [h]; decide
  · rw [h]; decide

theorem isAlphanum_of_isDigit (c : Char) (h : c.isDigit = true) :
    c.isAlphanum = true := by
  rw [Char.isAlphanum, h, Bool.or_true]

theorem rawOk_retry_pair (D : String) (hD : digitsOk D = true) :
    rawOk ("_cas_retry", D) = true := by
  rw [rawOk, Bool.and_eq_true]
  refine ⟨by show ("_cas_retry" : String).data.all queryChar = true; decide,
    List.all_eq_true.mpr (fun c hc => ?_)⟩
  exact queryChar_of_alphanum c
    (isAlphanum_of_isDigit c ((digitsOk_spec D hD).2 c hc))

theorem safeName_ne_retry (k : String) (h : safeName k = true) :
    ¬k = "_cas_retry" := by
  intro he
  rw [he] at h
  exact absurd h (by decide)

theorem jsToNumber_digits (D : String) (hD : digitsOk D = true) :
    jsToNumber? D = some (digitsToNat D.data) := by
  obtain ⟨hne, hdig⟩ := digitsOk_spec D hD
  have h1 : D.data.isEmpty = false := by
    cases hd : D.data with
    | nil => exact absurd hd hne
    | cons a b => rfl
  have h2 : D.data.all Char.isDigit = true :=
    List.all_eq_true.mpr (fun c hc => by simpa using hdig c hc)
  rw [jsToNumber?, h1]
  simp only [Bool.false_eq_true, if_false, h2, if_true]
  rfl

/-- C2: when ticket validation fails, the validation callback checks the
request's `_cas_retry` query parameter against the current minute-window
token.  If the parameter is absent (first conjunct) or numerically
different from the token (second conjunct), it issues one 307 redirect to
the original URL with any prior `_cas_retry` parameter removed and the
`ticket` parameter replaced by `_cas_retry=<token>`; if the parameter
equals the token, it fails with the original validation error and issues
no redirect. -/
theorem c2_retry_or_fail :
    (∀ (req : Request) (now : Nat) (err : String) (P T : String)
        (front post : List (String × String)),
      req.reqUrl = mkUrl P (front ++ ("ticket", T) :: post) →
      pathOk P = true →
      (∀ p ∈ front, safeName p.1 = true ∧ safeVal p.2 = true) →
      (∀ p ∈ post, safeName p.1 = true ∧ safeVal p.2 = true) →
      ticketOk T = true →
      onValidationError req now err =
        .redirect (mkUrl P
          (front ++ ("_cas_retry", toString (casRetryToken now)) :: post)) 307) ∧
    (∀ (req : Request) (now : Nat) (err : String) (P T D : String)
        (pre mid post : List (String × String)),
      req.reqUrl = mkUrl P (pre ++ ("_cas_retry", D) :: (mid ++ ("ticket", T) :: post)) →
      pathOk P = true →
      (∀ p ∈ pre, safeName p.1 = true ∧ safeVal p.2 = true) →
      (∀ p ∈ mid, safeName p.1 = true ∧ safeVal p.2 = true) →
      (∀ p ∈ post, safeName p.1 = true ∧ safeVal p.2 = true) →
      ticketOk T = true → digitsOk D = true →
      (digitsToNat D.data ≠ casRetryToken now →
        onValidationError req now err =
          .redirect (mkUrl P
            ((pre ++ mid) ++ ("_cas_retry", toString (casRetryToken now)) :: post)) 307) ∧
      (digitsToNat D.data = casRetryToken now →
        onValidationError req now err = .fail err)) := by
  constructor
  · intro req now err P T front post hurl hP hfront hpost hT
    have hparts : ∀ p ∈ front ++ ("ticket", T) :: post, rawOk p = true := by
      intro p hp
      rcases List.mem_append.mp hp with hm | hm
      · exact rawOk_of_safe p (hfront p hm)
      · rcases List.mem_cons.mp hm with hm | hm
        · rw [hm]; exact rawOk_ticket_pair T hT
        · exact rawOk_of_safe p (hpost p hm)
    have hpe : front ++ ("ticket", T) :: post ≠ [] := by
      intro h0
      rcases List.append_eq_nil.mp h0 with ⟨h1, h2⟩
      exact List.noConfusion h2
    have hnou : ∀ c ∈ P.data ++ '?' :: fmtRaw (front ++ ("ticket", T) :: post),
        ¬c = '_' := by
      intro c hc
      rcases List.mem_append.mp hc with hm | hm
      · exact pathOk_no_underscore P hP c hm
      · rcases List.mem_cons.mp hm with hm | hm
        · rw [hm]; decide
        · rcases fmtRaw_chars _ c hm with h0 | h0 | ⟨p, hp, hcp⟩
          · rw [h0]; decide
          · rw [h0]; decide
          · rcases List.mem_append.mp hp with hq | hq
            · rcases hcp with hcc | hcc
              · exact alphanum_ne c '_'
                  ((safeName_spec p.1 (hfront p hq).1).2.2 c hcc) (by decide)
              · refine alphanum_ne c '_' ?_ (by decide)
                simpa using List.all_eq_true.mp (hfront p hq).2 c hcc
            · rcases List.mem_cons.mp hq with hq | hq
              · rw [hq] at hcp
                rcases hcp with hcc | hcc
                · refine alphanum_ne c '_' ?_ (by decide)
                  have : ∀ x ∈ ("ticket" : String).data, x.isAlphanum = true := by decide
                  exact this c hcc
                · rcases (ticketOk_spec T hT).2 c hcc with h1 | h1 | h1
                  · exact alphanum_ne c '_' h1 (by decide)
                  · rw [h1]; decide
                  · rw [h1]; decide
              · rcases hcp with hcc | hcc
                · exact alphanum_ne c '_'
                    ((safeName_spec p.1 (hpost p hq).1).2.2 c hcc) (by decide)
                · refine alphanum_ne c '_' ?_ (by decide)
                  simpa using List.all_eq_true.mp (hpost p hq).2 c hcc
    have hrwu : rewriteRetryUrl req.reqUrl (casRetryToken now) =
        mkUrl P (front ++ ("_cas_retry", toString (casRetryToken now)) :: post) := by
      rw [rewriteRetryUrl, hurl]
      have hdata : (mkUrl P (front ++ ("ticket", T) :: post)).data =
          P.data ++ '?' :: fmtRaw (front ++ ("ticket", T) :: post) := rfl
      rw [hdata, replaceRetry_id _ hnou,
        replaceTicket_url (toString (casRetryToken now)).data P front post T hP hfront hT]
      rfl
    rw [onValidationError, hurl, parseUrl_mkUrl P _ hP hparts hpe]
    simp only
    have hlk : List.lookup "_cas_retry" (front ++ ("ticket", T) :: post) = none := by
      refine lookup_none_of _ _ (fun p hp => ?_)
      rcases List.mem_append.mp hp with hm | hm
      · exact safeName_ne_retry p.1 (hfront p hm).1
      · rcases List.mem_cons.mp hm with hm | hm
        · rw [hm]
          show ¬("ticket" : String) = "_cas_retry"
          decide
        · exact safeName_ne_retry p.1 (hpost p hm).1
    rw [hlk]
    have hln : jsLooseNeNat none (casRetryToken now) = true := rfl
    rw [hln]
    simp only [if_true]
    rw [← hurl, hrwu]
  · intro req now err P T D pre mid post hurl hP hpre hmid hpost hT hD
    have hrest2 : (mid ++ ("ticket", T) :: post) ≠ [] := by
      intro h0
      rcases List.append_eq_nil.mp h0 with ⟨h1, h2⟩
      exact List.noConfusion h2
    have hparts : ∀ p ∈ pre ++ ("_cas_retry", D) :: (mid ++ ("ticket", T) :: post),
        rawOk p = true := by
      intro p hp
      rcases List.mem_append.mp hp with hm | hm
      · exact rawOk_of_safe p (hpre p hm)
      · rcases List.mem_cons.mp hm with hm | hm
        · rw [hm]; exact rawOk_retry_pair D hD
        · rcases List.mem_append.mp hm with hm | hm
          · exact rawOk_of_safe p (hmid p hm)
          · rcases List.mem_cons.mp hm with hm | hm
            · rw [hm]; exact rawOk_ticket_pair T hT
            · exact rawOk_of_safe p (hpost p hm)
    have hpe : pre ++ ("_cas_retry", D) :: (mid ++ ("ticket", T) :: post) ≠ [] := by
      intro h0
      rcases List.append_eq_nil.mp h0 with ⟨h1, h2⟩
      exact List.noConfusion h2
    have hlk : List.lookup "_cas_retry"
        (pre ++ ("_cas_retry", D) :: (mid ++ ("ticket", T) :: post)) = some D := by
      rw [lookup_skip _ _ _ (fun p hp => safeName_ne_retry p.1 (hpre p hp).1)]
      rw [List.lookup]
      have : (("_cas_retry" : String) == ("_cas_retry", D).1) = true := by
        show (("_cas_retry" : String) == "_cas_retry") = true
        simp
      rw [this]
    have hcond : jsLooseNeNat (some D) (casRetryToken now) =
        decide (digitsToNat D.data ≠ casRetryToken now) := by
      rw [jsLooseNeNat, jsToNumber_digits D hD]
    have hbase : onValidationError req now err =
        if (decide (digitsToNat D.data ≠ casRetryToken now)) = true then
          .redirect (rewriteRetryUrl req.reqUrl (casRetryToken now)) 307
        else .fail err := by
      rw [onValidationError, hurl, parseUrl_mkUrl P _ hP hparts hpe]
      simp only
      rw [hlk, hcond, ← hurl]
    constructor
    · intro hne
      have hfrontAll : ∀ p ∈ pre ++ mid, safeName p.1 = true ∧ safeVal p.2 = true := by
        intro p hp
        rcases List.mem_append.mp hp with hm | hm
        · exact hpre p hm
        · exact hmid p hm
      have hrwu : rewriteRetryUrl req.reqUrl (casRetryToken now) =
          mkUrl P ((pre ++ mid) ++ ("_cas_retry", toString (casRetryToken now)) :: post) := by
        rw [rewriteRetryUrl, hurl]
        have hdata : (mkUrl P (pre ++ ("_cas_retry", D) :: (mid ++ ("ticket", T) :: post))).data =
            P.data ++ '?' :: fmtRaw (pre ++ ("_cas_retry", D) :: (mid ++ ("ticket", T) :: post)) := rfl
        rw [hdata, replaceRetry_url P pre _ D hP hpre hD hrest2]
        rw [show pre ++ (mid ++ ("ticket", T) :: post) =
          (pre ++ mid) ++ ("ticket", T) :: post from by simp]
        rw [replaceTicket_url (toString (casRetryToken now)).data P (pre ++ mid) post T
          hP hfrontAll hT]
        rfl
      rw [hbase, if_pos (decide_eq_true hne), hrwu]
    · intro heq
      have hc : decide (digitsToNat D.data ≠ casRetryToken now) = false := by
        rw [decide_eq_false_iff_not]
        exact fun h => h heq
      rw [hbase, hc]
      simp

/-- Witness for C2: a first failure redirects with `_cas_retry` added, a
stale retry token redirects again with the token refreshed, and a current
retry token fails with the original error. -/
theorem c2_retry_or_fail_witness :
    onValidationError { reqUrl := "/app?a=1&ticket=ST-1" } 60000 "bad ticket" =
      .redirect (mkUrl "/app"
        ([("a", "1")] ++ ("_cas_retry", toString (casRetryToken 60000)) :: [])) 307 ∧
    onValidationError { reqUrl := "/app?_cas_retry=1&ticket=ST-2" } 120000 "bad ticket" =
      .redirect (mkUrl "/app"
        (([] ++ []) ++ ("_cas_retry", toString (casRetryToken 120000)) :: [])) 307 ∧
    onValidationError { reqUrl := "/app?_cas_retry=2&ticket=ST-3" } 120000 "bad ticket" =
      .fail "bad ticket" :=
  ⟨c2_retry_or_fail.1 { reqUrl := "/app?a=1&ticket=ST-1" } 60000 "bad ticket"
      "/app" "ST-1" [("a", "1")] [] rfl (by decide) (by decide) (by decide) (by decide),
   (c2_retry_or_fail.2 { reqUrl := "/app?_cas_retry=1&ticket=ST-2" } 120000 "bad ticket"
      "/app" "ST-2" "1" [] [] [] rfl (by decide) (by decide) (by decide) (by decide)
      (by decide) (by decide)).1 (by decide),
   (c2_retry_or_fail.2 { reqUrl := "/app?_cas_retry=2&ticket=ST-3" } 120000 "bad ticket"
      "/app" "ST-3" "2" [] [] [] rfl (by decide) (by decide) (by decide) (by decide)
      (by decide) (by decide)).2 (by decide)⟩

end PassportCas
